import Mathlib

/-!
Verification of the Luxtick canonical-entity resolution engine
(`src/services/product.py`, together with the category-taxonomy resolver it
calls and the data model of `src/db/models.py`).

The Python code is shallowly embedded:

* strings are Lean `String`s, manipulated through their `List Char` contents
  (Python `str.strip`, `str.lower`, `str.title` are re-implemented on
  `List Char`; the embedding covers the ASCII range, which is the range the
  code's own alphanumeric/lowercase handling exercises);
* the similarity scorer is the one the source names explicitly:
  `rapidfuzz.fuzz.token_sort_ratio` with `rapidfuzz.utils.default_process`
  (replace non-alphanumeric characters by spaces, lowercase, trim; split into
  whitespace-separated tokens, sort them, join with single spaces, then the
  Indel-based normalized ratio `100 * (1 - dist / (len1 + len2))`).  Scores are
  exact rationals (`ℚ`) rather than IEEE doubles;
* the database is a `Catalog` value: the list of product rows (in enumeration
  order), the list of category rows, and counters standing for fresh
  primary-key generation (`uuid.uuid4` is modelled as a fresh counter);
  SQL `NULL` aliases behave identically to `[]` in every embedded code path
  and are modelled as `[]`;
* fallible code returns `Option`: `find_or_create_product` contains a Python
  `next(...)` expression that would raise `StopIteration` if no candidate
  carried the matched name, so its embedding returns `none` in that case
  (provably unreachable, see `find_or_create_product_total`).
-/

namespace Luxtick


/-! ## Python string primitives (ASCII fragment, on `List Char`) -/

/-- Python `str.strip()`: drop leading and trailing whitespace characters. -/
def stripL (l : List Char) : List Char :=
  ((l.dropWhile Char.isWhitespace).reverse.dropWhile Char.isWhitespace).reverse

/-- Python `str.strip()` on a `String`. -/
def pyStrip (s : String) : String :=
  String.mk (stripL s.data)

/-- Python `str.lower()` on a `String` (ASCII case folding). -/
def pyLower (s : String) : String :=
  String.mk (s.data.map Char.toLower)

/-- Python `str.title()`: uppercase every letter that follows a non-letter,
lowercase every letter that follows a letter.  The `Bool` argument records
whether the previous character was a letter. -/
def titleL : Bool → List Char → List Char
  | _, [] => []
  | prev, c :: rest =>
    if c.isAlpha then (if prev then c.toLower else c.toUpper) :: titleL true rest
    else c :: titleL false rest

/-- Python `str.title()` on a `String`. -/
def pyTitle (s : String) : String :=
  String.mk (titleL false s.data)

/-! ## The similarity scorer: `fuzz.token_sort_ratio` with `default_process` -/

/-- One character step of `rapidfuzz.utils.default_process`: non-alphanumeric
characters become spaces, everything is lowercased. -/
def processChar (c : Char) : Char :=
  if c.isAlphanum then c.toLower else ' '

/-- `rapidfuzz.utils.default_process`: replace non-alphanumeric characters by
whitespace, lowercase, trim. -/
def defaultProcessL (l : List Char) : List Char :=
  stripL (l.map processChar)

/-- Split into maximal whitespace-free tokens (Python `str.split()` with no
argument).  The accumulator holds the current token, reversed. -/
def wordsAux : List Char → List Char → List (List Char)
  | acc, [] => if acc = [] then [] else [acc.reverse]
  | acc, c :: rest =>
    if c.isWhitespace then
      (if acc = [] then wordsAux [] rest else acc.reverse :: wordsAux [] rest)
    else wordsAux (c :: acc) rest

/-- The whitespace-separated tokens of a character list. -/
def wordsL (l : List Char) : List (List Char) :=
  wordsAux [] l

/-- Join tokens with single spaces. -/
def joinTokens : List (List Char) → List Char
  | [] => []
  | [w] => w
  | w :: ws => w ++ ' ' :: joinTokens ws

/-- The token-sort normalization of `token_sort_ratio`: split into tokens,
sort them (code-point lexicographic order, as `sorted` does), join with
single spaces. -/
def sortTokensL (l : List Char) : List Char :=
  joinTokens (List.insertionSort (· ≤ ·) (wordsL l))

/-- Length of a longest common subsequence of two character lists, by
structural recursion on an explicit fuel argument (every recursive call
shrinks `x.length + y.length`, so `x.length + y.length` fuel suffices;
`lcsFuel_congr` shows the fuel is irrelevant once sufficient). -/
def lcsFuel : Nat → List Char → List Char → Nat
  | _, [], _ => 0
  | _, _ :: _, [] => 0
  | 0, _ :: _, _ :: _ => 0
  | f + 1, a :: s, b :: t =>
    if a = b then lcsFuel f s t + 1
    else max (lcsFuel f (a :: s) t) (lcsFuel f s (b :: t))

/-- Length of a longest common subsequence of two character lists. -/
def lcsL (x y : List Char) : Nat :=
  lcsFuel (x.length + y.length) x y

/-- The Indel distance (insertions and deletions only) between two character
lists, `len1 + len2 - 2 * lcs`. -/
def indelDistL (x y : List Char) : Nat :=
  x.length + y.length - 2 * lcsL x y

/-- `rapidfuzz` normalized similarity as a percentage:
`100 * (1 - dist / (len1 + len2))`, by convention `100` when both strings are
empty. -/
def ratioQ (x y : List Char) : ℚ :=
  if x.length + y.length = 0 then 100
  else 100 * ((x.length + y.length - indelDistL x y : ℕ) : ℚ) / ((x.length + y.length : ℕ) : ℚ)

/-- The scorer used by the source at both call sites:
`process.extractOne(..., scorer=fuzz.token_sort_ratio, processor=default_process)`
applies `default_process` to both strings and then the token-sort ratio. -/
def fuzzScore (a b : String) : ℚ :=
  ratioQ (sortTokensL (defaultProcessL a.data)) (sortTokensL (defaultProcessL b.data))

/-- `rapidfuzz.process.extractOne`: the choice with the maximal score against
the query; among equal scores the earliest choice wins (the documented
behaviour).  Returns the original (unprocessed) choice text and its score. -/
def extractOne (query : String) : List String → Option (String × ℚ)
  | [] => none
  | c :: rest =>
    match extractOne query rest with
    | none => some (c, fuzzScore query c)
    | some (n', s') =>
      if s' > fuzzScore query c then some (n', s') else some (c, fuzzScore query c)

/-! ## Case insensitivity of the processed score -/

/-- Python `str.upper()` on a `String` (ASCII case folding). -/
def pyUpper (s : String) : String :=
  String.mk (s.data.map Char.toUpper)

/-! ## Data model (`src/db/models.py`)

Primary keys (`uuid.uuid4`) are modelled as `Nat`s drawn from the fresh-id
counters of the `Catalog`.  A `NULL` alias array behaves exactly like `[]` in
every embedded code path and is modelled as `[]`. -/

/-- A canonical product row (`Product` in `src/db/models.py`; the fields the
resolution engine reads and writes). -/
structure Product where
  id : Nat
  canonical_name : String
  aliases : List String
  category_id : Option Nat
deriving Repr, DecidableEq

/-- A category row (`Category` in `src/db/models.py`). -/
structure Category where
  id : Nat
  name : String
  parent_id : Option Nat
deriving Repr, DecidableEq

/-- `ItemIntelligence` from `src/services/product_intelligence.py`: the
optional normalization hint consumed by the matcher. -/
structure ItemIntelligence where
  source_name : String
  canonical_name_en : String
  aliases_en : List String
  category_path_en : String
  confidence : ℚ
deriving Repr, DecidableEq

/-- The database state visible to the engine: product rows and category rows
in enumeration order, plus fresh-id counters standing for primary-key
generation. -/
structure Catalog where
  products : List Product
  categories : List Category
  nextProductId : Nat
  nextCategoryId : Nat
deriving Repr, DecidableEq

/-- `ProductResolution` from `src/services/product.py`. -/
structure ProductResolution where
  product_ids : List Nat
  matched_terms : List String
deriving Repr, DecidableEq

/-- The outcome of `ProductMatcher.find_or_create_product`: the returned
`(product, is_new)` pair, the database state after the call, and whether the
call made a commit-worthy change (`added_alias or category_assigned`, always
true on the create path since it inserts a row). -/
structure ResolveOutcome where
  product : Product
  is_new : Bool
  state : Catalog
  wrote : Bool
deriving Repr, DecidableEq

/-! ## Category taxonomy resolver

`src/services/category_taxonomy.py` is imported by the matcher but is not in
the source snapshot, so its one entry point is modelled from the spec. -/

/-- Modelled from the spec: splitting a category path on the separator
`" > "` (spec section 4.4: the path is split on `" > "`, left to right,
non-overlapping, like Python `str.split`).  The source file
`src/services/category_taxonomy.py` is missing from the snapshot. -/
def splitPathSegs : List Char → List (List Char)
  | [] => [[]]
  | ' ' :: '>' :: ' ' :: rest => [] :: splitPathSegs rest
  | c :: rest =>
    match splitPathSegs rest with
    | [] => [[c]]
    | h :: t => (c :: h) :: t

/-- Modelled from the spec (section 4.4): look up a category with the given
name under the given parent (`NULL` parent for a root segment); create it if
absent.  Returns the category id together with the updated rows and fresh-id
counter. -/
def lookupOrCreateCategory (cats : List Category) (nextId : Nat) (parent : Option Nat)
    (name : String) : Nat × List Category × Nat :=
  match cats.find? (fun c => c.name == name && c.parent_id == parent) with
  | some c => (c.id, cats, nextId)
  | none => (nextId, cats ++ [⟨nextId, name, parent⟩], nextId + 1)

/-- Modelled from the spec (section 4.4): walk the path segments in order,
resolving each under the previously resolved parent. -/
def resolveSegsAux : List String → Option Nat → List Category → Nat →
    Option Nat × List Category × Nat
  | [], parent, cats, nextId => (parent, cats, nextId)
  | seg :: rest, parent, cats, nextId =>
    let r := lookupOrCreateCategory cats nextId parent seg
    resolveSegsAux rest (some r.1) r.2.1 r.2.2

/-- Modelled from the spec: `resolve_or_create_category_path` from the
missing `src/services/category_taxonomy.py` (spec section 4.4): split the
path on `" > "`, trim each segment, then look up or create each level in
order and return the id of the leaf. -/
def resolve_or_create_category_path (path : String) (cats : List Category) (nextId : Nat) :
    Option Nat × List Category × Nat :=
  resolveSegsAux ((splitPathSegs path.data).map (fun l => pyStrip (String.mk l)))
    none cats nextId

/-! ## `ProductMatcher` (`src/services/product.py`) -/

/-- `AUTO_MATCH_THRESHOLD` from `src/services/product.py`. -/
def AUTO_MATCH_THRESHOLD : ℚ := 80

/-- The candidate index built per call: for each product, its canonical name
followed by its aliases, each paired with the product (the
`candidates` list of `find_or_create_product` and `resolve_products`). -/
def candidatesOf : List Product → List (String × Product)
  | [] => []
  | p :: rest => (p.canonical_name, p) :: (p.aliases.map (fun a => (a, p)) ++ candidatesOf rest)

/-- All candidate texts of a catalog: canonical names and aliases in
enumeration order. -/
def candidateTexts (ps : List Product) : List String :=
  (candidatesOf ps).map Prod.fst

/-- The match target of `find_or_create_product`: the hint's canonical name
when a hint is present with a non-empty (truthy) canonical name, else the raw
receipt name. -/
def matchTarget (name_on_receipt : String) (ii : Option ItemIntelligence) : String :=
  match ii with
  | some intel => if intel.canonical_name_en ≠ "" then intel.canonical_name_en else name_on_receipt
  | none => name_on_receipt

/-- The hint's suggested aliases, or `[]` when no hint is present. -/
def hintAliases (ii : Option ItemIntelligence) : List String :=
  match ii with
  | some intel => intel.aliases_en
  | none => []

/-- The canonical name `_create_product` gives a new entity: strip + title
case of the hint's canonical name when the hint carries a non-empty one,
else of the raw name. -/
def createdCanonicalName (n : String) (ii : Option ItemIntelligence) : String :=
  match ii with
  | some intel =>
    if intel.canonical_name_en ≠ "" then pyTitle (pyStrip intel.canonical_name_en)
    else pyTitle (pyStrip n)
  | none => pyTitle (pyStrip n)

/-- Python `dict.fromkeys` de-duplication: keep the first occurrence of each
(exactly equal) string, preserving order.  `seen` accumulates the keys met so
far. -/
def dedupKeepFirst (seen : List String) : List String → List String
  | [] => []
  | a :: rest =>
    if a ∈ seen then dedupKeepFirst seen rest else a :: dedupKeepFirst (a :: seen) rest

/-- The alias list `_create_product` gives a new entity: the raw name then
the hint aliases, stripped, blank entries dropped, de-duplicated by exact
string equality keeping first occurrences, capped at 50. -/
def createdAliases (n : String) (ii : Option ItemIntelligence) : List String :=
  (dedupKeepFirst []
    (((n :: hintAliases ii).filter (fun a => a ≠ "" && pyStrip a ≠ "")).map pyStrip)).take 50

/-- `ProductMatcher._create_product`: build the canonical name (strip + title
case of the hint's canonical name when truthy, else of the raw name), the
stripped, de-duplicated, capped alias list, and the optional category from
the hint's path; insert the new row. -/
def create_product (name : String) (ii : Option ItemIntelligence) (st : Catalog) :
    Product × Catalog :=
  let canonical_name : String := createdCanonicalName name ii
  let deduped_aliases : List String := createdAliases name ii
  let catR : Option Nat × List Category × Nat :=
    match ii with
    | some intel =>
      if intel.category_path_en ≠ "" then
        resolve_or_create_category_path intel.category_path_en st.categories st.nextCategoryId
      else (none, st.categories, st.nextCategoryId)
    | none => (none, st.categories, st.nextCategoryId)
  let product : Product :=
    { id := st.nextProductId, canonical_name := canonical_name,
      aliases := deduped_aliases, category_id := catR.1 }
  (product,
    { products := st.products ++ [product], categories := catR.2.1,
      nextProductId := st.nextProductId + 1, nextCategoryId := catR.2.2 })

/-- The candidate new aliases considered on a successful match: the raw
receipt name first, then the hint's aliases. -/
def candidateAliases (name_on_receipt : String) (ii : Option ItemIntelligence) : List String :=
  name_on_receipt :: hintAliases ii

/-- The alias-registration loop of `find_or_create_product`: strip each
candidate; append it when it is non-empty, no equal-lowercase alias is
already present, and the list holds fewer than 50 entries.  Returns the new
alias list and the `added_alias` flag. -/
def addAliasesLoop : List String → List String → Bool → List String × Bool
  | [], als, added => (als, added)
  | a :: rest, als, added =>
    let cleaned := pyStrip a
    if cleaned ≠ "" && !((als.map pyLower).contains (pyLower cleaned)) && als.length < 50 then
      addAliasesLoop rest (als ++ [cleaned]) true
    else
      addAliasesLoop rest als added

/-- The category-backfill condition of the matched branch:
`item_intelligence and item_intelligence.category_path_en and
matched_product.category_id is None`. -/
def backfillCond (ii : Option ItemIntelligence) (mp : Product) : Bool :=
  match ii with
  | some intel => decide (intel.category_path_en ≠ "") && mp.category_id.isNone
  | none => false

/-- The matched-product branch of `find_or_create_product`: register new
aliases, backfill the category when the hint supplies a path and the product
has none, write the updated row back, and report whether anything changed. -/
def applyMatch (name_on_receipt : String) (ii : Option ItemIntelligence) (st : Catalog)
    (matched_product : Product) : ResolveOutcome :=
  let loopR := addAliasesLoop (candidateAliases name_on_receipt ii) matched_product.aliases false
  let doBackfill : Bool := backfillCond ii matched_product
  let catR : Option Nat × List Category × Nat :=
    if doBackfill then
      match ii with
      | some intel =>
        resolve_or_create_category_path intel.category_path_en st.categories st.nextCategoryId
      | none => (matched_product.category_id, st.categories, st.nextCategoryId)
    else (matched_product.category_id, st.categories, st.nextCategoryId)
  let updated : Product :=
    { matched_product with aliases := loopR.1, category_id := catR.1 }
  let category_assigned : Bool := doBackfill && catR.1.isSome
  { product := updated, is_new := false,
    state := { st with
      products := st.products.map (fun p => if p.id == matched_product.id then updated else p),
      categories := catR.2.1, nextCategoryId := catR.2.2 },
    wrote := loopR.2 || category_assigned }

/-- `ProductMatcher.find_or_create_product`.  `none` models the
`StopIteration` that Python's `next(...)` would raise if no candidate carried
the matched name (provably unreachable, `find_or_create_product_total`). -/
def find_or_create_product (name_on_receipt : String) (ii : Option ItemIntelligence)
    (st : Catalog) : Option ResolveOutcome :=
  if st.products.isEmpty then
    let r := create_product name_on_receipt ii st
    some { product := r.1, is_new := true, state := r.2, wrote := true }
  else
    let candidates := candidatesOf st.products
    let target_name := matchTarget name_on_receipt ii
    match extractOne target_name (candidateTexts st.products) with
    | some (matched_name, score) =>
      if AUTO_MATCH_THRESHOLD ≤ score then
        match candidates.find? (fun c => c.1 == matched_name) with
        | some c => some (applyMatch name_on_receipt ii st c.2)
        | none => none
      else
        let r := create_product name_on_receipt ii st
        some { product := r.1, is_new := true, state := r.2, wrote := true }
    | none =>
      let r := create_product name_on_receipt ii st
      some { product := r.1, is_new := true, state := r.2, wrote := true }

/-- A sequence of `find_or_create_product` calls, each starting from the
state the previous one left behind (an unreachable `none` outcome leaves the
state unchanged, matching a rolled-back transaction). -/
def run_resolves : List (String × Option ItemIntelligence) → Catalog → Catalog
  | [], st => st
  | (n, ii) :: rest, st =>
    run_resolves rest
      (match find_or_create_product n ii st with
       | some r => r.state
       | none => st)

/-! ## `ProductResolver` (`src/services/product.py`) -/

/-- SQL `LIKE` pattern matching (`%` matches any sequence, `_` any single
character, anything else itself), by structural recursion on an explicit
fuel argument.  Every recursive call shrinks `pattern.length + text.length`
by at least one, so that sum is sufficient fuel and the fuel-exhausted case
(non-empty pattern at fuel zero) is unreachable from `sqlLike`. -/
def sqlLikeFuel : Nat → List Char → List Char → Bool
  | _, [], t => t.isEmpty
  | 0, _ :: _, _ => false
  | f + 1, '%' :: ps, [] => sqlLikeFuel f ps []
  | f + 1, '%' :: ps, c :: t => sqlLikeFuel f ps (c :: t) || sqlLikeFuel f ('%' :: ps) t
  | _ + 1, _ :: _, [] => false
  | f + 1, '_' :: ps, _ :: t => sqlLikeFuel f ps t
  | f + 1, a :: ps, c :: t => a == c && sqlLikeFuel f ps t

/-- SQL `LIKE` pattern matching: `%` matches any sequence, `_` any single
character, anything else itself. -/
def sqlLike (p t : List Char) : Bool :=
  sqlLikeFuel (p.length + t.length) p t

/-- Postgres `column ILIKE '%term%'`: case-insensitive `LIKE` against the
pattern that wraps the term in `%` wildcards. -/
def ilikeContains (text : String) (term : String) : Bool :=
  sqlLike ('%' :: ((pyLower term).data ++ ['%'])) (pyLower text).data

/-- The category name joined to a product (`LEFT OUTER JOIN` on
`Product.category_id == Category.id`; category ids are primary keys, so the
first row with the id is the row). -/
def categoryNameOf (st : Catalog) (p : Product) : Option String :=
  match p.category_id with
  | some cid => (st.categories.find? (fun c => c.id == cid)).map Category.name
  | none => none

/-- The `WHERE` clause of the first query of `resolve_products`:
`canonical_name ILIKE '%term%' OR aliases.any(term) OR category.name ILIKE
'%term%'`.  `aliases.any(term)` on a Postgres `ARRAY` column is exact,
case-sensitive membership of the term in the array. -/
def substringFilter (cleaned_term : String) (st : Catalog) : List Product :=
  st.products.filter (fun p =>
    ilikeContains p.canonical_name cleaned_term ||
    p.aliases.contains cleaned_term ||
    (match categoryNameOf st p with
     | some n => ilikeContains n cleaned_term
     | none => false))

/-- `ProductResolver.resolve_products`.  The second component of the result
is the database state after the call (the function only runs `SELECT`s, so
every branch returns the input state).  `none` models the `StopIteration`
Python's `next(...)` would raise if no candidate carried the matched name
(provably unreachable). -/
def resolve_products (term : String) (st : Catalog) (limit : Nat) :
    Option (ProductResolution × Catalog) :=
  let cleaned_term := pyStrip term
  if cleaned_term = "" then some (⟨[], []⟩, st)
  else
    let found := (substringFilter cleaned_term st).take limit
    if found.isEmpty then
      if st.products.isEmpty then some (⟨[], []⟩, st)
      else
        let candidates := candidatesOf st.products
        match extractOne cleaned_term (candidateTexts st.products) with
        | none => some (⟨[], []⟩, st)
        | some (matched_name, score) =>
          if score < 75 then some (⟨[], []⟩, st)
          else
            match candidates.find? (fun c => c.1 == matched_name) with
            | some c => some (⟨[c.2.id], [c.2.canonical_name]⟩, st)
            | none => none
    else some (⟨found.map Product.id, found.map Product.canonical_name⟩, st)

/-- Whether `needle` occurs as a contiguous run inside the second list. -/
def listContainsSeq (needle : List Char) : List Char → Bool
  | [] => needle.isEmpty
  | c :: t => List.isPrefixOf needle (c :: t) || listContainsSeq needle t

/-- Case-insensitive substring containment, the reading of "exact/substring
(case-insensitive) search" in the spec (used to compare the spec's read-side
search with the code's). -/
def containsCI (text term : String) : Bool :=
  listContainsSeq (pyLower term).data (pyLower text).data

/-- The spec's description (section 4.5 step 2) of the read-side exact path,
stated from the spec's words for comparison with `substringFilter`:
a case-insensitive substring search across canonical names, aliases, and
category names. -/
def specSubstringMatch (term : String) (st : Catalog) (p : Product) : Bool :=
  containsCI p.canonical_name term ||
  p.aliases.any (fun a => containsCI a term) ||
  (match categoryNameOf st p with
   | some n => containsCI n term
   | none => false)

/-! ## Taxonomy resolver lemmas -/

/-- Uniqueness of `(name, parent_id)` pairs across category rows. -/
def catPairsNodup (cats : List Category) : Prop :=
  cats.Pairwise (fun c d => ¬(c.name = d.name ∧ c.parent_id = d.parent_id))

/-- Concrete catalog for the C1 witness: one product `"Milk"`. -/
def wCatalogC1 : Catalog :=
  ⟨[⟨0, "Milk", ["Milk"], none⟩], [], 1, 0⟩

/-- Concrete catalog for the C4 witness: one product at the alias cap. -/
def wCatalogC4 : Catalog :=
  ⟨[⟨0, "Milk", ["Milk"], none⟩], [], 1, 0⟩

/-- Concrete catalog for the C7 witness: one product `"Milk"` with no
aliases; the term `"milkk"` has no substring hit but scores `800/9 ≥ 75`. -/
def wCatalogC7 : Catalog :=
  ⟨[⟨0, "Milk", [], none⟩], [], 1, 0⟩

/-- Concrete catalog for the C10 witness: the text `"Shared"` belongs to the
first product (as an alias) and to the second product (as its canonical
name). -/
def wCatalogC10 : Catalog :=
  ⟨[⟨0, "Milk", ["Shared"], none⟩, ⟨1, "Shared", [], none⟩], [], 2, 0⟩

/-- The hint for the C2 witness. -/
def wHintC2 : ItemIntelligence :=
  ⟨"pechuga de pollo", "Chicken Breast", ["Chicken Fillet"], "", 0⟩

/-- The outcome of the C2 witness call. -/
def wOutC2 : ResolveOutcome :=
  ⟨⟨0, "Chicken Breast", ["pechuga de pollo", "Chicken Fillet"], none⟩, true,
    ⟨[⟨0, "Chicken Breast", ["pechuga de pollo", "Chicken Fillet"], none⟩], [], 1, 0⟩, true⟩

/-- The catalog for the C9 witness. -/
def wCatalogC9 : Catalog :=
  ⟨[⟨0, "Leche", ["LECHE"], none⟩], [], 1, 0⟩

/-- The catalog for the C3 witness: one entity holding alias `"Leche"`. -/
def wCatalogC3 : Catalog :=
  ⟨[⟨0, "Leche", ["Leche"], none⟩], [], 1, 0⟩

/-! ## Theorems -/

theorem lcsFuel_congr : ∀ (f g : Nat) (x y : List Char),
    x.length + y.length ≤ f → x.length + y.length ≤ g → lcsFuel f x y = lcsFuel g x y := by
  intro f
  induction f with
  | zero =>
    intro g x y hf _
    match x, y with
    | [], y => cases g <;> rfl
    | a :: s, y => simp [List.length_cons] at hf
  | succ f ih =>
    intro g x y hf hg
    match x, y with
    | [], y => cases g <;> rfl
    | a :: s, [] => cases g <;> rfl
    | a :: s, b :: t =>
      match g, hg with
      | g + 1, hg =>
        simp only [List.length_cons] at hf hg
        show (if a = b then lcsFuel f s t + 1
              else max (lcsFuel f (a :: s) t) (lcsFuel f s (b :: t))) =
            (if a = b then lcsFuel g s t + 1
              else max (lcsFuel g (a :: s) t) (lcsFuel g s (b :: t)))
        rw [ih g s t (by omega) (by omega),
          ih g (a :: s) t (by simp [List.length_cons]; omega) (by simp [List.length_cons]; omega),
          ih g s (b :: t) (by simp [List.length_cons]; omega) (by simp [List.length_cons]; omega)]

/-! ## Basic lemmas about the scorer -/

theorem lcsFuel_nil_left (f : Nat) (y : List Char) : lcsFuel f [] y = 0 := by
  cases f <;> cases y <;> rfl

theorem lcsFuel_nil_right (f : Nat) (x : List Char) : lcsFuel f x [] = 0 := by
  cases f <;> cases x <;> rfl

theorem lcsL_nil_left (y : List Char) : lcsL [] y = 0 :=
  lcsFuel_nil_left _ _

theorem lcsL_nil_right (x : List Char) : lcsL x [] = 0 :=
  lcsFuel_nil_right _ _

theorem lcsL_cons_cons (a b : Char) (s t : List Char) :
    lcsL (a :: s) (b :: t) =
      if a = b then lcsL s t + 1 else max (lcsL (a :: s) t) (lcsL s (b :: t)) := by
  unfold lcsL
  have h1 : (a :: s).length + (b :: t).length = (s.length + (b :: t).length) + 1 := by
    simp only [List.length_cons]
    omega
  rw [h1]
  show (if a = b then lcsFuel (s.length + (b :: t).length) s t + 1
        else max (lcsFuel (s.length + (b :: t).length) (a :: s) t)
          (lcsFuel (s.length + (b :: t).length) s (b :: t))) = _
  rw [lcsFuel_congr (s.length + (b :: t).length) (s.length + t.length) s t
      (by simp only [List.length_cons]; omega) (le_refl _),
    lcsFuel_congr (s.length + (b :: t).length) ((a :: s).length + t.length) (a :: s) t
      (by simp only [List.length_cons]; omega) (by simp only [List.length_cons]; omega)]

theorem lcsL_comm (x y : List Char) : lcsL x y = lcsL y x := by
  by_cases hx : x = []
  · subst hx; simp [lcsL_nil_left, lcsL_nil_right]
  · by_cases hy : y = []
    · subst hy; simp [lcsL_nil_left, lcsL_nil_right]
    · obtain ⟨a, s, rfl⟩ := List.exists_cons_of_ne_nil hx
      obtain ⟨b, t, rfl⟩ := List.exists_cons_of_ne_nil hy
      by_cases hab : a = b
      · subst hab
        rw [lcsL_cons_cons, lcsL_cons_cons, if_pos rfl, if_pos rfl, lcsL_comm s t]
      · have h1 : lcsL (a :: s) t = lcsL t (a :: s) := lcsL_comm (a :: s) t
        have h2 : lcsL s (b :: t) = lcsL (b :: t) s := lcsL_comm s (b :: t)
        rw [lcsL_cons_cons, lcsL_cons_cons, if_neg hab, if_neg (Ne.symm hab), h1, h2]
        exact Nat.max_comm _ _
termination_by x.length + y.length
decreasing_by all_goals (subst_vars; simp [List.length_cons]; try omega)

theorem lcsL_le_left (x y : List Char) : lcsL x y ≤ x.length := by
  by_cases hx : x = []
  · subst hx; simp [lcsL_nil_left]
  · by_cases hy : y = []
    · subst hy; simp [lcsL_nil_right]
    · obtain ⟨a, s, rfl⟩ := List.exists_cons_of_ne_nil hx
      obtain ⟨b, t, rfl⟩ := List.exists_cons_of_ne_nil hy
      by_cases hab : a = b
      · have := lcsL_le_left s t
        rw [lcsL_cons_cons, if_pos hab]
        simp only [List.length_cons]
        omega
      · have h1 := lcsL_le_left (a :: s) t
        have h2 := lcsL_le_left s (b :: t)
        rw [lcsL_cons_cons, if_neg hab]
        simp only [List.length_cons] at *
        omega
termination_by x.length + y.length
decreasing_by all_goals (subst_vars; simp [List.length_cons]; try omega)

theorem lcsL_le_right (x y : List Char) : lcsL x y ≤ y.length := by
  rw [lcsL_comm]; exact lcsL_le_left y x

theorem lcsL_self (x : List Char) : lcsL x x = x.length := by
  induction x with
  | nil => exact lcsL_nil_left []
  | cons a s ih => rw [lcsL_cons_cons, if_pos rfl, ih, List.length_cons]

theorem two_mul_lcsL_le (x y : List Char) : 2 * lcsL x y ≤ x.length + y.length := by
  have h1 := lcsL_le_left x y
  have h2 := lcsL_le_right x y
  omega

theorem ratioQ_comm (x y : List Char) : ratioQ x y = ratioQ y x := by
  unfold ratioQ indelDistL
  rw [lcsL_comm, Nat.add_comm x.length y.length]

theorem ratioQ_eq_lcs (x y : List Char) (h : x.length + y.length ≠ 0) :
    ratioQ x y = (200 * lcsL x y : ℚ) / ((x.length + y.length : ℕ) : ℚ) := by
  have hle := two_mul_lcsL_le x y
  unfold ratioQ indelDistL
  rw [if_neg h]
  have : x.length + y.length - (x.length + y.length - 2 * lcsL x y) = 2 * lcsL x y := by
    omega
  rw [this]
  push_cast
  ring

theorem ratioQ_nonneg (x y : List Char) : 0 ≤ ratioQ x y := by
  unfold ratioQ
  split
  · norm_num
  · positivity

theorem ratioQ_le_100 (x y : List Char) : ratioQ x y ≤ 100 := by
  by_cases h : x.length + y.length = 0
  · unfold ratioQ; rw [if_pos h]
  · rw [ratioQ_eq_lcs x y h]
    rw [div_le_iff₀ (by positivity)]
    have hle := two_mul_lcsL_le x y
    have : (2 * lcsL x y : ℚ) ≤ ((x.length + y.length : ℕ) : ℚ) := by
      exact_mod_cast hle
    nlinarith

theorem ratioQ_self (x : List Char) : ratioQ x x = 100 := by
  by_cases h : x.length + x.length = 0
  · unfold ratioQ; rw [if_pos h]
  · rw [ratioQ_eq_lcs x x h, lcsL_self]
    rw [div_eq_iff (by exact_mod_cast h)]
    push_cast
    ring

theorem fuzzScore_comm (a b : String) : fuzzScore a b = fuzzScore b a := by
  unfold fuzzScore
  exact ratioQ_comm _ _

theorem fuzzScore_nonneg (a b : String) : 0 ≤ fuzzScore a b :=
  ratioQ_nonneg _ _

theorem fuzzScore_le_100 (a b : String) : fuzzScore a b ≤ 100 :=
  ratioQ_le_100 _ _

/-- Two strings whose processed forms agree score 100. -/
theorem fuzzScore_eq_100_of_process_eq {a b : String}
    (h : defaultProcessL a.data = defaultProcessL b.data) : fuzzScore a b = 100 := by
  unfold fuzzScore
  rw [h]
  exact ratioQ_self _

theorem fuzzScore_self (a : String) : fuzzScore a a = 100 :=
  fuzzScore_eq_100_of_process_eq rfl

theorem char_toLower_def (c : Char) :
    c.toLower = if c.toNat ≥ 65 ∧ c.toNat ≤ 90 then Char.ofNat (c.toNat + 32) else c := rfl

theorem char_toUpper_def (c : Char) :
    c.toUpper = if c.toNat ≥ 97 ∧ c.toNat ≤ 122 then Char.ofNat (c.toNat - 32) else c := rfl

theorem char_toNat_ofNat {n : Nat} (h : n.isValidChar) : (Char.ofNat n).toNat = n := by
  unfold Char.ofNat
  rw [dif_pos h]
  rfl

theorem char_eq_of_toNat_eq {c d : Char} (h : c.toNat = d.toNat) : c = d :=
  Char.ext (UInt32.ext h)

theorem char_ofNat_toNat (c : Char) : Char.ofNat c.toNat = c := by
  have hv : c.toNat.isValidChar := c.valid
  exact char_eq_of_toNat_eq (char_toNat_ofNat hv)

theorem char_isAlphanum_iff (c : Char) :
    c.isAlphanum = true ↔
      (48 ≤ c.toNat ∧ c.toNat ≤ 57) ∨ (65 ≤ c.toNat ∧ c.toNat ≤ 90) ∨
        (97 ≤ c.toNat ∧ c.toNat ≤ 122) := by
  show (c.isAlpha || c.isDigit) = true ↔ _
  show ((c.isUpper || c.isLower) || c.isDigit) = true ↔ _
  simp only [Bool.or_eq_true, Char.isUpper, Char.isLower, Char.isDigit,
    Bool.and_eq_true, decide_eq_true_eq]
  constructor
  · rintro ((⟨h1, h2⟩ | ⟨h1, h2⟩) | ⟨h1, h2⟩)
    · exact Or.inr (Or.inl ⟨h1, h2⟩)
    · exact Or.inr (Or.inr ⟨h1, h2⟩)
    · exact Or.inl ⟨h1, h2⟩
  · rintro (⟨h1, h2⟩ | ⟨h1, h2⟩ | ⟨h1, h2⟩)
    · exact Or.inr ⟨h1, h2⟩
    · exact Or.inl (Or.inl ⟨h1, h2⟩)
    · exact Or.inl (Or.inr ⟨h1, h2⟩)

theorem processChar_toLower (c : Char) : processChar c.toLower = processChar c := by
  by_cases h : c.toNat ≥ 65 ∧ c.toNat ≤ 90
  · have hval : (Char.ofNat (c.toNat + 32)).toNat = c.toNat + 32 :=
      char_toNat_ofNat (Or.inl (by omega))
    have hlow : c.toLower = Char.ofNat (c.toNat + 32) := by
      rw [char_toLower_def, if_pos h]
    have halnum1 : (Char.ofNat (c.toNat + 32)).isAlphanum = true := by
      rw [char_isAlphanum_iff, hval]; right; right; omega
    have halnum2 : c.isAlphanum = true := by
      rw [char_isAlphanum_iff]; right; left; exact h
    have hdl : (Char.ofNat (c.toNat + 32)).toLower = Char.ofNat (c.toNat + 32) := by
      rw [char_toLower_def, if_neg (by rw [hval]; omega)]
    calc processChar c.toLower
        = processChar (Char.ofNat (c.toNat + 32)) := by rw [hlow]
      _ = (Char.ofNat (c.toNat + 32)).toLower := by unfold processChar; rw [if_pos halnum1]
      _ = Char.ofNat (c.toNat + 32) := hdl
      _ = c.toLower := hlow.symm
      _ = processChar c := by unfold processChar; rw [if_pos halnum2]
  · rw [char_toLower_def, if_neg h]

theorem processChar_toUpper (c : Char) : processChar c.toUpper = processChar c := by
  by_cases h : c.toNat ≥ 97 ∧ c.toNat ≤ 122
  · have hval : (Char.ofNat (c.toNat - 32)).toNat = c.toNat - 32 :=
      char_toNat_ofNat (Or.inl (by omega))
    have hup : c.toUpper = Char.ofNat (c.toNat - 32) := by
      rw [char_toUpper_def, if_pos h]
    have halnum1 : (Char.ofNat (c.toNat - 32)).isAlphanum = true := by
      rw [char_isAlphanum_iff, hval]; right; left; omega
    have halnum2 : c.isAlphanum = true := by
      rw [char_isAlphanum_iff]; right; right; exact h
    have hdl : (Char.ofNat (c.toNat - 32)).toLower =
        Char.ofNat ((Char.ofNat (c.toNat - 32)).toNat + 32) := by
      rw [char_toLower_def, if_pos (by rw [hval]; omega)]
    have hback : (Char.ofNat (c.toNat - 32)).toNat + 32 = c.toNat := by
      rw [hval]; omega
    have hcl : c.toLower = c := by
      rw [char_toLower_def, if_neg (by omega)]
    calc processChar c.toUpper
        = processChar (Char.ofNat (c.toNat - 32)) := by rw [hup]
      _ = (Char.ofNat (c.toNat - 32)).toLower := by unfold processChar; rw [if_pos halnum1]
      _ = Char.ofNat ((Char.ofNat (c.toNat - 32)).toNat + 32) := hdl
      _ = Char.ofNat c.toNat := by rw [hback]
      _ = c := char_ofNat_toNat c
      _ = c.toLower := hcl.symm
      _ = processChar c := by unfold processChar; rw [if_pos halnum2]
  · rw [char_toUpper_def, if_neg h]

theorem defaultProcessL_map_toLower (l : List Char) :
    defaultProcessL (l.map Char.toLower) = defaultProcessL l := by
  unfold defaultProcessL
  rw [List.map_map]
  congr 1
  exact List.map_congr_left fun c _ => processChar_toLower c

theorem defaultProcessL_map_toUpper (l : List Char) :
    defaultProcessL (l.map Char.toUpper) = defaultProcessL l := by
  unfold defaultProcessL
  rw [List.map_map]
  congr 1
  exact List.map_congr_left fun c _ => processChar_toUpper c

theorem fuzzScore_pyLower_left (a b : String) : fuzzScore (pyLower a) b = fuzzScore a b := by
  unfold fuzzScore pyLower
  rw [show (String.mk (a.data.map Char.toLower)).data = a.data.map Char.toLower from rfl,
    defaultProcessL_map_toLower]

theorem fuzzScore_pyUpper_left (a b : String) : fuzzScore (pyUpper a) b = fuzzScore a b := by
  unfold fuzzScore pyUpper
  rw [show (String.mk (a.data.map Char.toUpper)).data = a.data.map Char.toUpper from rfl,
    defaultProcessL_map_toUpper]

/-! ## Leading/trailing-whitespace insensitivity -/

theorem processChar_of_ws {c : Char} (h : c.isWhitespace = true) : processChar c = ' ' := by
  have h' : c = ' ' ∨ c = '\t' ∨ c = '\r' ∨ c = '\n' := by
    revert h
    show (c = ' ' || c = '\t' || c = '\r' || c = '\n') = true → _
    simp only [Bool.or_eq_true, decide_eq_true_eq]
    tauto
  rcases h' with rfl | rfl | rfl | rfl <;> rfl

theorem wordsAux_all_ws (acc w : List Char) (hw : ∀ c ∈ w, c.isWhitespace = true) :
    wordsAux acc w = if acc = [] then [] else [acc.reverse] := by
  induction w generalizing acc with
  | nil => rfl
  | cons c rest ih =>
    have hc : c.isWhitespace = true := hw c (List.mem_cons_self c rest)
    have hrest : ∀ d ∈ rest, d.isWhitespace = true := fun d hd => hw d (List.mem_cons_of_mem c hd)
    show (if c.isWhitespace then _ else _) = _
    rw [if_pos hc]
    by_cases hacc : acc = []
    · rw [if_pos hacc, if_pos hacc, ih [] hrest, if_pos rfl]
    · rw [if_neg hacc, if_neg hacc, ih [] hrest, if_pos rfl]

theorem wordsAux_append_ws (x : List Char) (acc w : List Char)
    (hw : ∀ c ∈ w, c.isWhitespace = true) : wordsAux acc (x ++ w) = wordsAux acc x := by
  induction x generalizing acc with
  | nil =>
    rw [List.nil_append, wordsAux_all_ws acc w hw]
    rfl
  | cons c rest ih =>
    show wordsAux acc (c :: (rest ++ w)) = wordsAux acc (c :: rest)
    show (if c.isWhitespace then _ else _) = (if c.isWhitespace then _ else _)
    by_cases hc : c.isWhitespace = true
    · rw [if_pos hc, if_pos hc]
      by_cases hacc : acc = []
      · rw [if_pos hacc, if_pos hacc, ih []]
      · rw [if_neg hacc, if_neg hacc, ih []]
    · rw [if_neg hc, if_neg hc, ih (c :: acc)]

theorem wordsL_ws_append (w x : List Char) (hw : ∀ c ∈ w, c.isWhitespace = true) :
    wordsL (w ++ x) = wordsL x := by
  induction w with
  | nil => rfl
  | cons c rest ih =>
    have hc : c.isWhitespace = true := hw c (List.mem_cons_self c rest)
    have hrest : ∀ d ∈ rest, d.isWhitespace = true := fun d hd => hw d (List.mem_cons_of_mem c hd)
    show wordsAux [] (c :: (rest ++ x)) = wordsL x
    show (if c.isWhitespace then _ else _) = wordsL x
    rw [if_pos hc, if_pos rfl]
    exact ih hrest

theorem strip_decomposition (l : List Char) :
    ∃ w₁ w₂, (∀ c ∈ w₁, c.isWhitespace = true) ∧ (∀ c ∈ w₂, c.isWhitespace = true) ∧
      l = w₁ ++ stripL l ++ w₂ := by
  refine ⟨l.takeWhile Char.isWhitespace,
    ((l.dropWhile Char.isWhitespace).reverse.takeWhile Char.isWhitespace).reverse, ?_, ?_, ?_⟩
  · intro c hc
    exact List.mem_takeWhile_imp hc
  · intro c hc
    rw [List.mem_reverse] at hc
    exact List.mem_takeWhile_imp hc
  · unfold stripL
    conv_lhs => rw [← List.takeWhile_append_dropWhile (p := Char.isWhitespace) (l := l)]
    rw [List.append_assoc]
    congr 1
    have hd : (l.dropWhile Char.isWhitespace).reverse =
        List.takeWhile Char.isWhitespace (l.dropWhile Char.isWhitespace).reverse ++
          List.dropWhile Char.isWhitespace (l.dropWhile Char.isWhitespace).reverse :=
      (List.takeWhile_append_dropWhile (p := Char.isWhitespace)
        (l := (l.dropWhile Char.isWhitespace).reverse)).symm
    calc l.dropWhile Char.isWhitespace
        = (l.dropWhile Char.isWhitespace).reverse.reverse := (List.reverse_reverse _).symm
      _ = (List.takeWhile Char.isWhitespace (l.dropWhile Char.isWhitespace).reverse ++
            List.dropWhile Char.isWhitespace (l.dropWhile Char.isWhitespace).reverse).reverse := by
          rw [← hd]
      _ = (List.dropWhile Char.isWhitespace (l.dropWhile Char.isWhitespace).reverse).reverse ++
            (List.takeWhile Char.isWhitespace (l.dropWhile Char.isWhitespace).reverse).reverse := by
          rw [List.reverse_append]

theorem wordsL_stripL (l : List Char) : wordsL (stripL l) = wordsL l := by
  obtain ⟨w₁, w₂, h₁, h₂, hl⟩ := strip_decomposition l
  conv_rhs => rw [hl]
  rw [List.append_assoc] at *
  rw [wordsL_ws_append w₁ _ h₁]
  unfold wordsL
  rw [wordsAux_append_ws _ [] w₂ h₂]

theorem wordsL_map_stripL (l : List Char) :
    wordsL ((stripL l).map processChar) = wordsL (l.map processChar) := by
  obtain ⟨w₁, w₂, h₁, h₂, hl⟩ := strip_decomposition l
  conv_rhs => rw [hl]
  rw [List.map_append, List.map_append]
  have h₁' : ∀ c ∈ w₁.map processChar, c.isWhitespace = true := by
    intro c hc
    obtain ⟨d, hd, rfl⟩ := List.mem_map.mp hc
    rw [processChar_of_ws (h₁ d hd)]
    rfl
  have h₂' : ∀ c ∈ w₂.map processChar, c.isWhitespace = true := by
    intro c hc
    obtain ⟨d, hd, rfl⟩ := List.mem_map.mp hc
    rw [processChar_of_ws (h₂ d hd)]
    rfl
  rw [List.append_assoc, wordsL_ws_append _ _ h₁']
  unfold wordsL
  rw [wordsAux_append_ws _ [] _ h₂']

theorem wordsL_defaultProcessL (l : List Char) :
    wordsL (defaultProcessL l) = wordsL (l.map processChar) := by
  unfold defaultProcessL
  exact wordsL_stripL _

theorem fuzzScore_pyStrip_left (a b : String) : fuzzScore (pyStrip a) b = fuzzScore a b := by
  unfold fuzzScore pyStrip sortTokensL
  rw [show (String.mk (stripL a.data)).data = stripL a.data from rfl]
  rw [wordsL_defaultProcessL (stripL a.data), wordsL_map_stripL, ← wordsL_defaultProcessL]

/-! ## Word-order insensitivity -/

theorem sortTokensL_eq_of_perm {x y : List Char}
    (h : List.Perm (wordsL x) (wordsL y)) : sortTokensL x = sortTokensL y := by
  unfold sortTokensL
  congr 1
  have p1 := List.perm_insertionSort (· ≤ ·) (wordsL x)
  have p2 := List.perm_insertionSort (· ≤ ·) (wordsL y)
  exact List.eq_of_perm_of_sorted (p1.trans (h.trans p2.symm))
    (List.sorted_insertionSort _ _) (List.sorted_insertionSort _ _)

theorem fuzzScore_eq_100_of_words_perm (a b : String)
    (h : List.Perm (wordsL (defaultProcessL a.data)) (wordsL (defaultProcessL b.data))) :
    fuzzScore a b = 100 := by
  unfold fuzzScore
  rw [sortTokensL_eq_of_perm h]
  exact ratioQ_self _

/-! ## `extractOne` characterization -/

theorem extractOne_eq_none_iff (q : String) (cs : List String) :
    extractOne q cs = none ↔ cs = [] := by
  cases cs with
  | nil => simp [extractOne]
  | cons c rest =>
    simp only [extractOne]
    constructor
    · intro h
      cases hrest : extractOne q rest with
      | none => rw [hrest] at h; exact absurd h (by simp)
      | some p =>
        rw [hrest] at h
        obtain ⟨n', s'⟩ := p
        by_cases hgt : s' > fuzzScore q c <;> simp [hgt] at h
    · intro h; exact absurd h (by simp)

theorem extractOne_spec (q : String) (cs : List String) (n : String) (s : ℚ)
    (h : extractOne q cs = some (n, s)) :
    n ∈ cs ∧ s = fuzzScore q n ∧ ∀ c ∈ cs, fuzzScore q c ≤ s := by
  induction cs generalizing n s with
  | nil => exact absurd h (by simp [extractOne])
  | cons c rest ih =>
    rw [extractOne] at h
    cases hrest : extractOne q rest with
    | none =>
      rw [hrest] at h
      have hnil : rest = [] := (extractOne_eq_none_iff q rest).mp hrest
      obtain ⟨rfl, rfl⟩ : c = n ∧ fuzzScore q c = s := by
        simpa using h
      subst hnil
      exact ⟨List.mem_cons_self _ _, rfl, by simp⟩
    | some p =>
      obtain ⟨n', s'⟩ := p
      rw [hrest] at h
      dsimp only at h
      by_cases hgt : s' > fuzzScore q c
      · rw [if_pos hgt] at h
        obtain ⟨rfl, rfl⟩ : n' = n ∧ s' = s := by simpa using h
        obtain ⟨hmem, hscore, hbound⟩ := ih _ _ hrest
        refine ⟨List.mem_cons_of_mem c hmem, hscore, ?_⟩
        intro d hd
        rcases List.mem_cons.mp hd with rfl | hd
        · exact le_of_lt hgt
        · exact hbound d hd
      · rw [if_neg hgt] at h
        obtain ⟨rfl, rfl⟩ : c = n ∧ fuzzScore q c = s := by simpa using h
        obtain ⟨hmem, hscore, hbound⟩ := ih _ _ hrest
        refine ⟨List.mem_cons_self _ _, rfl, ?_⟩
        intro d hd
        rcases List.mem_cons.mp hd with rfl | hd
        · exact le_refl _
        · exact le_trans (hbound d hd) (not_lt.mp hgt)

theorem extractOne_isSome (q : String) (cs : List String) (h : cs ≠ []) :
    (extractOne q cs).isSome = true := by
  cases hx : extractOne q cs with
  | none => exact absurd ((extractOne_eq_none_iff q cs).mp hx) h
  | some p => rfl

/-! ## Helper lemmas about the candidate index -/

theorem snd_mem_of_mem_candidatesOf {ps : List Product} {c : String × Product}
    (h : c ∈ candidatesOf ps) : c.2 ∈ ps := by
  induction ps with
  | nil => exact absurd h (by simp [candidatesOf])
  | cons p rest ih =>
    rw [candidatesOf] at h
    rcases List.mem_cons.mp h with rfl | h
    · exact List.mem_cons_self _ _
    · rcases List.mem_append.mp h with h | h
      · obtain ⟨a, _, rfl⟩ := List.mem_map.mp h
        exact List.mem_cons_self _ _
      · exact List.mem_cons_of_mem _ (ih h)

theorem candidateTexts_cons (p : Product) (rest : List Product) :
    candidateTexts (p :: rest) =
      p.canonical_name :: (p.aliases ++ candidateTexts rest) := by
  unfold candidateTexts
  rw [candidatesOf, List.map_cons, List.map_append, List.map_map]
  simp [Function.comp_def]

theorem candidateTexts_ne_nil {ps : List Product} (h : ps ≠ []) :
    candidateTexts ps ≠ [] := by
  obtain ⟨p, rest, rfl⟩ := List.exists_cons_of_ne_nil h
  rw [candidateTexts_cons]
  exact List.cons_ne_nil _ _

/-- The match-by-name lookup `next(p for n, p in candidates if n == matched_name)`
selects the entity that first contributes the text, in product enumeration
order: it agrees with a `find?` over the products themselves. -/
theorem find?_candidatesOf_eq (ps : List Product) (nm : String) :
    ((candidatesOf ps).find? (fun c => c.1 == nm)).map Prod.snd =
      ps.find? (fun p => p.canonical_name == nm || p.aliases.contains nm) := by
  induction ps with
  | nil => rfl
  | cons p rest ih =>
    rw [candidatesOf]
    by_cases hc : (p.canonical_name == nm) = true
    · have e1 : ((p.canonical_name, p) ::
          (List.map (fun a => (a, p)) p.aliases ++ candidatesOf rest)).find?
            (fun c => c.1 == nm) = some (p.canonical_name, p) :=
        List.find?_cons_of_pos _ hc
      have e2 : (p :: rest).find?
          (fun q => q.canonical_name == nm || q.aliases.contains nm) = some p :=
        List.find?_cons_of_pos _ (by rw [Bool.or_eq_true]; exact Or.inl hc)
      rw [e1, e2]
      rfl
    · have e1 : ((p.canonical_name, p) ::
          (List.map (fun a => (a, p)) p.aliases ++ candidatesOf rest)).find?
            (fun c => c.1 == nm) =
          (List.map (fun a => (a, p)) p.aliases ++ candidatesOf rest).find?
            (fun c => c.1 == nm) :=
        List.find?_cons_of_neg _ hc
      rw [e1]
      by_cases ha : (p.aliases.contains nm) = true
      · have e2 : (p :: rest).find?
            (fun q => q.canonical_name == nm || q.aliases.contains nm) = some p :=
          List.find?_cons_of_pos _ (by rw [Bool.or_eq_true]; exact Or.inr ha)
        rw [e2]
        have hi : nm ∈ p.aliases := by simpa using ha
        have hsome : ((p.aliases.map (fun a => (a, p))).find? (fun c => c.1 == nm)).isSome := by
          rw [List.find?_isSome]
          exact ⟨(nm, p), List.mem_map_of_mem _ hi, by simp⟩
        obtain ⟨c, hc'⟩ := Option.isSome_iff_exists.mp hsome
        rw [List.find?_append, hc']
        have hcp : c.2 = p := by
          have hmem := List.mem_of_find?_eq_some hc'
          obtain ⟨a, _, rfl⟩ := List.mem_map.mp hmem
          rfl
        simp [hcp]
      · have e2 : (p :: rest).find?
            (fun q => q.canonical_name == nm || q.aliases.contains nm) =
            rest.find? (fun q => q.canonical_name == nm || q.aliases.contains nm) :=
          List.find?_cons_of_neg _
            (by rw [Bool.or_eq_true]; rintro (h | h); exact hc h; exact ha h)
        rw [e2]
        have hnone : (p.aliases.map (fun a => (a, p))).find? (fun c => c.1 == nm) = none := by
          rw [List.find?_eq_none]
          intro c hmem
          obtain ⟨a, hmem', rfl⟩ := List.mem_map.mp hmem
          intro hbeq
          have haeq : a = nm := by simpa using hbeq
          subst haeq
          exact ha (by simpa using hmem')
        rw [List.find?_append, hnone]
        simpa using ih

theorem find?_candidatesOf_isSome {ps : List Product} {nm : String}
    (h : nm ∈ candidateTexts ps) :
    ((candidatesOf ps).find? (fun c => c.1 == nm)).isSome := by
  rw [List.find?_isSome]
  obtain ⟨c, hc, rfl⟩ := List.mem_map.mp h
  exact ⟨c, hc, by simp⟩

/-! ## Helper lemmas about the alias-registration loop -/

theorem addAliasesLoop_length_le (as : List String) (als : List String) (added : Bool)
    (h : als.length ≤ 50) : (addAliasesLoop as als added).1.length ≤ 50 := by
  induction as generalizing als added with
  | nil => exact h
  | cons a rest ih =>
    rw [addAliasesLoop]
    split
    · next hcond =>
      have hlt : als.length < 50 := by
        simp only [Bool.and_eq_true, decide_eq_true_eq] at hcond
        exact hcond.2
      exact ih (als ++ [pyStrip a]) true (by simp [List.length_append]; omega)
    · exact ih als added h

theorem addAliasesLoop_at_cap (as : List String) (als : List String) (added : Bool)
    (h : 50 ≤ als.length) : addAliasesLoop as als added = (als, added) := by
  induction as generalizing added with
  | nil => rfl
  | cons a rest ih =>
    rw [addAliasesLoop]
    rw [if_neg (by simp only [Bool.and_eq_true, decide_eq_true_eq, not_and]; omega)]
    exact ih added

theorem addAliasesLoop_noop (as : List String) (als : List String) (added : Bool)
    (h : ∀ a ∈ as, pyStrip a = "" ∨ (als.map pyLower).contains (pyLower (pyStrip a))) :
    addAliasesLoop as als added = (als, added) := by
  induction as generalizing added with
  | nil => rfl
  | cons a rest ih =>
    rw [addAliasesLoop]
    have ha := h a (List.mem_cons_self _ _)
    rw [if_neg ?_]
    · exact ih added fun a' h' => h a' (List.mem_cons_of_mem _ h')
    · rcases ha with ha | ha
      · simp only [ha, ne_eq, not_true_eq_false, decide_False, Bool.false_and]
        exact Bool.false_ne_true
      · simp only [ha, Bool.not_true, Bool.and_false, Bool.false_and]
        exact Bool.false_ne_true

/-! ## Helper lemmas about products with unique ids -/

theorem eq_of_mem_of_id_eq {ps : List Product} {p q : Product}
    (hnodup : (ps.map Product.id).Nodup) (hp : p ∈ ps) (hq : q ∈ ps)
    (h : p.id = q.id) : p = q :=
  List.inj_on_of_nodup_map hnodup hp hq h

theorem map_replace_self {ps : List Product} {p0 : Product}
    (hnodup : (ps.map Product.id).Nodup) (hmem : p0 ∈ ps) :
    ps.map (fun p => if p.id == p0.id then p0 else p) = ps := by
  induction ps with
  | nil => rfl
  | cons q rest ih =>
    rw [List.map_cons] at *
    have hnodup' : (rest.map Product.id).Nodup := (List.nodup_cons.mp hnodup).2
    have hq_notin : q.id ∉ rest.map Product.id := (List.nodup_cons.mp hnodup).1
    rcases List.mem_cons.mp hmem with rfl | hmem'
    · rw [if_pos (by simp)]
      congr 1
      have : ∀ p ∈ rest, (if p.id == p0.id then p0 else p) = p := by
        intro p hp
        rw [if_neg ?_]
        simp only [beq_iff_eq]
        intro hid
        exact hq_notin (hid ▸ List.mem_map_of_mem Product.id hp)
      rw [List.map_congr_left this, List.map_id'']
      exact fun _ => rfl
    · have hne : q.id ≠ p0.id := by
        intro hid
        exact hq_notin (hid ▸ List.mem_map_of_mem Product.id hmem')
      rw [if_neg (by simpa using hne)]
      congr 1
      exact ih hnodup' hmem'

/-! ## Branch lemmas for `find_or_create_product` -/

theorem create_product_fst_aliases_le (n : String) (ii : Option ItemIntelligence)
    (st : Catalog) : (create_product n ii st).1.aliases.length ≤ 50 :=
  List.length_take_le _ _

theorem create_product_snd_products (n : String) (ii : Option ItemIntelligence)
    (st : Catalog) :
    (create_product n ii st).2.products = st.products ++ [(create_product n ii st).1] := rfl

theorem create_product_fst_id (n : String) (ii : Option ItemIntelligence) (st : Catalog) :
    (create_product n ii st).1.id = st.nextProductId := rfl

theorem applyMatch_product_id (n : String) (ii : Option ItemIntelligence) (st : Catalog)
    (mp : Product) : (applyMatch n ii st mp).product.id = mp.id := rfl

theorem applyMatch_product_aliases (n : String) (ii : Option ItemIntelligence)
    (st : Catalog) (mp : Product) :
    (applyMatch n ii st mp).product.aliases =
      (addAliasesLoop (candidateAliases n ii) mp.aliases false).1 := rfl

theorem applyMatch_is_new (n : String) (ii : Option ItemIntelligence) (st : Catalog)
    (mp : Product) : (applyMatch n ii st mp).is_new = false := rfl

theorem applyMatch_state_products (n : String) (ii : Option ItemIntelligence)
    (st : Catalog) (mp : Product) :
    (applyMatch n ii st mp).state.products =
      st.products.map (fun p => if p.id == mp.id then (applyMatch n ii st mp).product else p) :=
  rfl

theorem foc_empty (n : String) (ii : Option ItemIntelligence) (st : Catalog)
    (h : st.products = []) :
    find_or_create_product n ii st =
      some ⟨(create_product n ii st).1, true, (create_product n ii st).2, true⟩ := by
  unfold find_or_create_product
  rw [if_pos (by simp [h])]

theorem foc_extract_none (n : String) (ii : Option ItemIntelligence) (st : Catalog)
    (hne : st.products ≠ [])
    (hex : extractOne (matchTarget n ii) (candidateTexts st.products) = none) :
    find_or_create_product n ii st =
      some ⟨(create_product n ii st).1, true, (create_product n ii st).2, true⟩ := by
  unfold find_or_create_product
  rw [if_neg (by simp [hne])]
  dsimp only
  rw [hex]

theorem foc_extract_low (n : String) (ii : Option ItemIntelligence) (st : Catalog)
    (nm : String) (s : ℚ) (hne : st.products ≠ [])
    (hex : extractOne (matchTarget n ii) (candidateTexts st.products) = some (nm, s))
    (hlow : ¬ AUTO_MATCH_THRESHOLD ≤ s) :
    find_or_create_product n ii st =
      some ⟨(create_product n ii st).1, true, (create_product n ii st).2, true⟩ := by
  unfold find_or_create_product
  rw [if_neg (by simp [hne])]
  dsimp only
  rw [hex]
  dsimp only
  rw [if_neg hlow]

theorem foc_extract_high (n : String) (ii : Option ItemIntelligence) (st : Catalog)
    (nm : String) (s : ℚ) (c : String × Product) (hne : st.products ≠ [])
    (hex : extractOne (matchTarget n ii) (candidateTexts st.products) = some (nm, s))
    (hhigh : AUTO_MATCH_THRESHOLD ≤ s)
    (hfind : (candidatesOf st.products).find? (fun c => c.1 == nm) = some c) :
    find_or_create_product n ii st = some (applyMatch n ii st c.2) := by
  unfold find_or_create_product
  rw [if_neg (by simp [hne])]
  dsimp only
  rw [hex]
  dsimp only
  rw [if_pos hhigh, hfind]

/-- The matcher is total: the Python `next(...)` can never raise, because the
best-scoring name returned by `extractOne` is always one of the candidate
texts. -/
theorem find_or_create_product_total (n : String) (ii : Option ItemIntelligence)
    (st : Catalog) : (find_or_create_product n ii st).isSome = true := by
  by_cases hemp : st.products = []
  · rw [foc_empty n ii st hemp]; rfl
  · cases hex : extractOne (matchTarget n ii) (candidateTexts st.products) with
    | none => rw [foc_extract_none n ii st hemp hex]; rfl
    | some pr =>
      obtain ⟨nm, s⟩ := pr
      by_cases hth : AUTO_MATCH_THRESHOLD ≤ s
      · obtain ⟨hmem, _, _⟩ := extractOne_spec _ _ _ _ hex
        obtain ⟨c, hc⟩ := Option.isSome_iff_exists.mp (find?_candidatesOf_isSome hmem)
        rw [foc_extract_high n ii st nm s c hemp hex hth hc]
        rfl
      · rw [foc_extract_low n ii st nm s hemp hex hth]
        rfl

/-- Any single `find_or_create_product` call preserves the 50-alias cap on
every product in the catalog. -/
theorem foc_preserves_alias_cap (n : String) (ii : Option ItemIntelligence)
    (st : Catalog) (r : ResolveOutcome)
    (hcap : ∀ p ∈ st.products, p.aliases.length ≤ 50)
    (h : find_or_create_product n ii st = some r) :
    ∀ p ∈ r.state.products, p.aliases.length ≤ 50 := by
  have hcreate : ∀ (r' : ResolveOutcome),
      r' = ⟨(create_product n ii st).1, true, (create_product n ii st).2, true⟩ →
      ∀ p ∈ r'.state.products, p.aliases.length ≤ 50 := by
    rintro r' rfl p hp
    rw [create_product_snd_products] at hp
    rcases List.mem_append.mp hp with hp | hp
    · exact hcap p hp
    · rw [List.mem_singleton.mp hp]
      exact create_product_fst_aliases_le n ii st
  by_cases hemp : st.products = []
  · rw [foc_empty n ii st hemp] at h
    exact hcreate r (Option.some.inj h).symm
  · cases hex : extractOne (matchTarget n ii) (candidateTexts st.products) with
    | none =>
      rw [foc_extract_none n ii st hemp hex] at h
      exact hcreate r (Option.some.inj h).symm
    | some pr =>
      obtain ⟨nm, s⟩ := pr
      by_cases hth : AUTO_MATCH_THRESHOLD ≤ s
      · obtain ⟨hmem, _, _⟩ := extractOne_spec _ _ _ _ hex
        obtain ⟨c, hc⟩ := Option.isSome_iff_exists.mp (find?_candidatesOf_isSome hmem)
        rw [foc_extract_high n ii st nm s c hemp hex hth hc] at h
        obtain rfl : applyMatch n ii st c.2 = r := Option.some.inj h
        intro p hp
        rw [applyMatch_state_products] at hp
        obtain ⟨q, hq, rfl⟩ := List.mem_map.mp hp
        by_cases hid : (q.id == c.2.id) = true
        · rw [if_pos hid, applyMatch_product_aliases]
          have hc2 : c.2 ∈ st.products :=
            snd_mem_of_mem_candidatesOf (List.mem_of_find?_eq_some hc)
          exact addAliasesLoop_length_le _ _ _ (hcap c.2 hc2)
        · rw [if_neg hid]
          exact hcap q hq
      · rw [foc_extract_low n ii st nm s hemp hex hth] at h
        exact hcreate r (Option.some.inj h).symm

/-- The 50-alias cap is preserved by any sequence of resolve calls. -/
theorem run_resolves_alias_cap (reqs : List (String × Option ItemIntelligence))
    (st : Catalog) (hcap : ∀ p ∈ st.products, p.aliases.length ≤ 50) :
    ∀ p ∈ (run_resolves reqs st).products, p.aliases.length ≤ 50 := by
  induction reqs generalizing st with
  | nil => exact hcap
  | cons req rest ih =>
    obtain ⟨n, ii⟩ := req
    rw [run_resolves]
    cases hr : find_or_create_product n ii st with
    | none => exact ih st hcap
    | some r => exact ih r.state (foc_preserves_alias_cap n ii st r hcap hr)

theorem lookupOrCreateCategory_stable (cats : List Category) (n : Nat) (parent : Option Nat)
    (name : String) (i : Nat) (cats1 : List Category) (n1 : Nat)
    (h : lookupOrCreateCategory cats n parent name = (i, cats1, n1))
    (Δ : List Category) (m : Nat) :
    lookupOrCreateCategory (cats1 ++ Δ) m parent name = (i, cats1 ++ Δ, m) := by
  unfold lookupOrCreateCategory at h
  cases hf : cats.find? (fun c => c.name == name && c.parent_id == parent) with
  | some c =>
    rw [hf] at h
    dsimp only at h
    have h1 : c.id = i := congrArg Prod.fst h
    have h2 : cats = cats1 := congrArg (fun t => t.2.1) h
    have h3 : n = n1 := congrArg (fun t => t.2.2) h
    subst h1 h2 h3
    have hfind : (cats ++ Δ).find? (fun c => c.name == name && c.parent_id == parent) =
        some c := by
      rw [List.find?_append, hf]
      rfl
    unfold lookupOrCreateCategory
    rw [hfind]
  | none =>
    rw [hf] at h
    dsimp only at h
    have h1 : n = i := congrArg Prod.fst h
    have h2 : cats ++ [(⟨n, name, parent⟩ : Category)] = cats1 := congrArg (fun t => t.2.1) h
    have h3 : n + 1 = n1 := congrArg (fun t => t.2.2) h
    subst h1 h2 h3
    have hfind : ((cats ++ [(⟨n, name, parent⟩ : Category)]) ++ Δ).find?
        (fun c => c.name == name && c.parent_id == parent) =
        some (⟨n, name, parent⟩ : Category) := by
      rw [List.append_assoc, List.find?_append, hf]
      simp
    unfold lookupOrCreateCategory
    rw [hfind]

theorem resolveSegsAux_extends (segs : List String) (parent : Option Nat)
    (cats : List Category) (n : Nat) :
    ∃ Δ, (resolveSegsAux segs parent cats n).2.1 = cats ++ Δ := by
  induction segs generalizing parent cats n with
  | nil => exact ⟨[], by simp [resolveSegsAux]⟩
  | cons seg rest ih =>
    rw [resolveSegsAux]
    unfold lookupOrCreateCategory
    cases hf : cats.find? (fun c => c.name == seg && c.parent_id == parent) with
    | some c => exact ih _ _ _
    | none =>
      obtain ⟨Δ, hΔ⟩ := ih (some n) (cats ++ [⟨n, seg, parent⟩]) (n + 1)
      exact ⟨⟨n, seg, parent⟩ :: Δ, by rw [hΔ, List.append_assoc]; rfl⟩

theorem resolveSegsAux_idem (segs : List String) (parent pid : Option Nat)
    (cats cats1 : List Category) (n n1 : Nat)
    (h : resolveSegsAux segs parent cats n = (pid, cats1, n1)) :
    resolveSegsAux segs parent cats1 n1 = (pid, cats1, n1) := by
  induction segs generalizing parent cats n with
  | nil =>
    have h1 : parent = pid := congrArg Prod.fst h
    have h2 : cats = cats1 := congrArg (fun t => t.2.1) h
    have h3 : n = n1 := congrArg (fun t => t.2.2) h
    subst h1 h2 h3
    rfl
  | cons seg rest ih =>
    rw [resolveSegsAux] at h
    cases hl : lookupOrCreateCategory cats n parent seg with
    | mk i rest' =>
      obtain ⟨c1, m1⟩ := rest'
      rw [hl] at h
      dsimp only at h
      obtain ⟨Δ, hΔ⟩ := resolveSegsAux_extends rest (some i) c1 m1
      rw [h] at hΔ
      dsimp only at hΔ
      have hstable := lookupOrCreateCategory_stable cats n parent seg i c1 m1 hl Δ n1
      rw [← hΔ] at hstable
      rw [resolveSegsAux]
      rw [hstable]
      exact ih (some i) c1 m1 h

theorem lookupOrCreateCategory_preserves_nodup (cats : List Category) (n : Nat)
    (parent : Option Nat) (name : String) (h : catPairsNodup cats) :
    catPairsNodup (lookupOrCreateCategory cats n parent name).2.1 := by
  unfold lookupOrCreateCategory
  cases hf : cats.find? (fun c => c.name == name && c.parent_id == parent) with
  | some c => exact h
  | none =>
    dsimp only
    unfold catPairsNodup at *
    rw [List.pairwise_append]
    refine ⟨h, List.pairwise_singleton _ _, ?_⟩
    intro a ha b hb
    rw [List.mem_singleton.mp hb]
    intro hcontra
    have hnp := List.find?_eq_none.mp hf a ha
    apply hnp
    rw [Bool.and_eq_true, beq_iff_eq, beq_iff_eq]
    exact ⟨hcontra.1, hcontra.2⟩

theorem resolveSegsAux_preserves_nodup (segs : List String) (parent : Option Nat)
    (cats : List Category) (n : Nat) (h : catPairsNodup cats) :
    catPairsNodup (resolveSegsAux segs parent cats n).2.1 := by
  induction segs generalizing parent cats n with
  | nil => exact h
  | cons seg rest ih =>
    rw [resolveSegsAux]
    exact ih (some (lookupOrCreateCategory cats n parent seg).1)
      (lookupOrCreateCategory cats n parent seg).2.1
      (lookupOrCreateCategory cats n parent seg).2.2
      (lookupOrCreateCategory_preserves_nodup cats n parent seg h)

theorem applyMatch_preserves_ids (n : String) (ii : Option ItemIntelligence)
    (st : Catalog) (mp : Product) :
    (applyMatch n ii st mp).state.products.map Product.id = st.products.map Product.id := by
  rw [applyMatch_state_products, List.map_map]
  apply List.map_congr_left
  intro q hq
  by_cases hid : (q.id == mp.id) = true
  · show Product.id (if (q.id == mp.id) = true then (applyMatch n ii st mp).product else q) = q.id
    rw [if_pos hid, applyMatch_product_id]
    exact (beq_iff_eq.mp hid).symm
  · show Product.id (if (q.id == mp.id) = true then (applyMatch n ii st mp).product else q) = q.id
    rw [if_neg hid]

/-- Evaluation helper: a score is `200·lcs / (total length)` of the two
token-sorted processed strings. -/
theorem fuzzScore_eval (a b : String) (x y : List Char) (k m : Nat)
    (hx : sortTokensL (defaultProcessL a.data) = x)
    (hy : sortTokensL (defaultProcessL b.data) = y)
    (hk : lcsL x y = k) (hm : x.length + y.length = m) (hm0 : m ≠ 0) :
    fuzzScore a b = (200 * (k : ℚ)) / (m : ℚ) := by
  unfold fuzzScore
  rw [hx, hy, ratioQ_eq_lcs _ _ (by rw [hm]; exact hm0), hk, hm]

/-! ## Claim theorems -/

/-- C8: resolving the same category path twice returns the same id both
times and the second call creates no category rows; moreover uniqueness of
`(name, parent_id)` pairs is preserved, so re-resolving the same path string
always yields the same node. -/
theorem C8_taxonomy_resolution_idempotent (path : String) (cats : List Category)
    (n : Nat) (pid : Option Nat) (cats1 : List Category) (n1 : Nat)
    (h : resolve_or_create_category_path path cats n = (pid, cats1, n1)) :
    resolve_or_create_category_path path cats1 n1 = (pid, cats1, n1) ∧
      (catPairsNodup cats → catPairsNodup cats1) := by
  constructor
  · exact resolveSegsAux_idem _ none pid cats cats1 n n1 h
  · intro hnd
    have hpres := resolveSegsAux_preserves_nodup
      ((splitPathSegs path.data).map (fun l => pyStrip (String.mk l))) none cats n hnd
    unfold resolve_or_create_category_path at h
    rw [h] at hpres
    exact hpres

/-- Witness for C8 at the concrete path `"Food > Poultry"` on an empty
category table. -/
theorem C8_taxonomy_resolution_idempotent_witness :
    resolve_or_create_category_path "Food > Poultry" [] 0 =
      (some 1, [⟨0, "Food", none⟩, ⟨1, "Poultry", some 0⟩], 2) ∧
    resolve_or_create_category_path "Food > Poultry"
        [⟨0, "Food", none⟩, ⟨1, "Poultry", some 0⟩] 2 =
      (some 1, [⟨0, "Food", none⟩, ⟨1, "Poultry", some 0⟩], 2) ∧
    catPairsNodup [⟨0, "Food", none⟩, ⟨1, "Poultry", some 0⟩] := by
  have h : resolve_or_create_category_path "Food > Poultry" [] 0 =
      (some 1, [⟨0, "Food", none⟩, ⟨1, "Poultry", some 0⟩], 2) := by decide
  refine ⟨h, (C8_taxonomy_resolution_idempotent _ _ _ _ _ _ h).1,
    (C8_taxonomy_resolution_idempotent _ _ _ _ _ _ h).2 ?_⟩
  unfold catPairsNodup
  decide

/-- C5, counterexample to the claim as stated: the scorer is not
integer-valued.  `score("ab","a")` is `200/3`, which is not an integer. -/
theorem C5_score_not_integer_counterexample :
    fuzzScore "ab" "a" = 200 / 3 ∧ ¬ ∃ z : ℤ, fuzzScore "ab" "a" = (z : ℚ) := by
  have h : fuzzScore "ab" "a" = 200 / 3 := by
    rw [fuzzScore_eval "ab" "a" "ab".data "a".data 1 3 (by decide) (by decide)
      (by decide) (by decide) (by norm_num)]
    norm_num
  refine ⟨h, ?_⟩
  rintro ⟨z, hz⟩
  rw [h] at hz
  have h200 : (200 : ℚ) = (z : ℚ) * 3 := by
    field_simp at hz
    linarith
  have hint : (200 : ℤ) = z * 3 := by exact_mod_cast h200
  omega

/-- C5, amended: the score is commutative, a rational in `[0, 100]`
(not an integer in general), insensitive to letter case and to
leading/trailing whitespace, and two strings sharing all their words in a
different order score exactly 100 — in particular
`score("chicken breast","breast chicken") = 100`. -/
theorem C5_score_algebraic_properties :
    (∀ a b : String, fuzzScore a b = fuzzScore b a) ∧
    (∀ a b : String, 0 ≤ fuzzScore a b ∧ fuzzScore a b ≤ 100) ∧
    (∀ a b : String, fuzzScore (pyUpper a) b = fuzzScore a b ∧
      fuzzScore (pyLower a) b = fuzzScore a b ∧
      fuzzScore a (pyUpper b) = fuzzScore a b ∧
      fuzzScore a (pyLower b) = fuzzScore a b) ∧
    (∀ a b : String, fuzzScore (pyStrip a) b = fuzzScore a b ∧
      fuzzScore a (pyStrip b) = fuzzScore a b) ∧
    (∀ a b : String,
      List.Perm (wordsL (defaultProcessL a.data)) (wordsL (defaultProcessL b.data)) →
        fuzzScore a b = 100) ∧
    fuzzScore "chicken breast" "breast chicken" = 100 := by
  refine ⟨fuzzScore_comm, fun a b => ⟨fuzzScore_nonneg a b, fuzzScore_le_100 a b⟩,
    fun a b => ⟨fuzzScore_pyUpper_left a b, fuzzScore_pyLower_left a b, ?_, ?_⟩,
    fun a b => ⟨fuzzScore_pyStrip_left a b, ?_⟩,
    fuzzScore_eq_100_of_words_perm, ?_⟩
  · rw [fuzzScore_comm a (pyUpper b), fuzzScore_pyUpper_left, fuzzScore_comm]
  · rw [fuzzScore_comm a (pyLower b), fuzzScore_pyLower_left, fuzzScore_comm]
  · rw [fuzzScore_comm a (pyStrip b), fuzzScore_pyStrip_left, fuzzScore_comm]
  · exact fuzzScore_eq_100_of_words_perm _ _ (by decide)

/-- Witness for C5 at concrete inputs: the word-order example, plus case and
whitespace insensitivity at `"MILK"`, `" milk "`. -/
theorem C5_score_algebraic_properties_witness :
    fuzzScore "chicken breast" "breast chicken" = 100 ∧
    fuzzScore (pyUpper "milk") "milk" = fuzzScore "milk" "milk" ∧
    fuzzScore (pyStrip " milk ") "milk" = fuzzScore " milk " "milk" ∧
    fuzzScore "ab" "xy" = fuzzScore "xy" "ab" := by
  refine ⟨C5_score_algebraic_properties.2.2.2.2.2, ?_, ?_, ?_⟩
  · exact (C5_score_algebraic_properties.2.2.1 "milk" "milk").1
  · exact (C5_score_algebraic_properties.2.2.2.1 " milk " "milk").1
  · exact C5_score_algebraic_properties.1 "ab" "xy"

/-- Inversion: a `find_or_create_product` call that reports `is_new = false`
went through the matched branch: some candidate name best-scored at or above
the threshold and the outcome is `applyMatch` on the first candidate carrying
that name. -/
theorem foc_inv_matched (n : String) (ii : Option ItemIntelligence) (st : Catalog)
    (r : ResolveOutcome) (h : find_or_create_product n ii st = some r)
    (hnew : r.is_new = false) :
    ∃ nm s c, st.products ≠ [] ∧
      extractOne (matchTarget n ii) (candidateTexts st.products) = some (nm, s) ∧
      AUTO_MATCH_THRESHOLD ≤ s ∧
      (candidatesOf st.products).find? (fun x => x.1 == nm) = some c ∧
      r = applyMatch n ii st c.2 := by
  by_cases hemp : st.products = []
  · rw [foc_empty n ii st hemp] at h
    obtain rfl := Option.some.inj h
    exact absurd hnew (by simp)
  · cases hex : extractOne (matchTarget n ii) (candidateTexts st.products) with
    | none =>
      rw [foc_extract_none n ii st hemp hex] at h
      obtain rfl := Option.some.inj h
      exact absurd hnew (by simp)
    | some pr =>
      obtain ⟨nm, s⟩ := pr
      by_cases hth : AUTO_MATCH_THRESHOLD ≤ s
      · obtain ⟨hmem, _, _⟩ := extractOne_spec _ _ _ _ hex
        obtain ⟨c, hc⟩ := Option.isSome_iff_exists.mp (find?_candidatesOf_isSome hmem)
        rw [foc_extract_high n ii st nm s c hemp hex hth hc] at h
        refine ⟨nm, s, c, hemp, rfl, hth, hc, ?_⟩
        exact (Option.some.inj h).symm
      · rw [foc_extract_low n ii st nm s hemp hex hth] at h
        obtain rfl := Option.some.inj h
        exact absurd hnew (by simp)

/-- C1: on a non-empty catalog with a non-blank raw name, `resolve` returns
an existing entity with `created = false` when some candidate text scores at
least 80 against the match target (and then inserts no new row); it returns
a newly created entity (`created = true`, fresh id) when every candidate
text scores below 80, and likewise when the catalog is empty. -/
theorem C1_resolve_threshold (n : String) (ii : Option ItemIntelligence) (st : Catalog)
    (hblank : pyStrip n ≠ "")
    (hfresh : ∀ p ∈ st.products, p.id < st.nextProductId) :
    (st.products = [] →
      ∃ r, find_or_create_product n ii st = some r ∧ r.is_new = true ∧
        r.product.id ∉ st.products.map Product.id) ∧
    (st.products ≠ [] →
      (∃ c ∈ candidateTexts st.products,
        AUTO_MATCH_THRESHOLD ≤ fuzzScore (matchTarget n ii) c) →
      ∃ r, find_or_create_product n ii st = some r ∧ r.is_new = false ∧
        r.product.id ∈ st.products.map Product.id ∧
        r.state.products.map Product.id = st.products.map Product.id) ∧
    (st.products ≠ [] →
      (∀ c ∈ candidateTexts st.products,
        fuzzScore (matchTarget n ii) c < AUTO_MATCH_THRESHOLD) →
      ∃ r, find_or_create_product n ii st = some r ∧ r.is_new = true ∧
        r.product.id ∉ st.products.map Product.id) := by
  refine ⟨?_, ?_, ?_⟩
  · intro hemp
    refine ⟨_, foc_empty n ii st hemp, rfl, ?_⟩
    rw [hemp]
    simp
  · intro hne ⟨c0, hc0, hscore⟩
    cases hex : extractOne (matchTarget n ii) (candidateTexts st.products) with
    | none => exact absurd ((extractOne_eq_none_iff _ _).mp hex) (candidateTexts_ne_nil hne)
    | some pr =>
      obtain ⟨nm, s⟩ := pr
      obtain ⟨hmem, hseq, hmax⟩ := extractOne_spec _ _ _ _ hex
      have hth : AUTO_MATCH_THRESHOLD ≤ s := le_trans hscore (hmax c0 hc0)
      obtain ⟨c, hc⟩ := Option.isSome_iff_exists.mp (find?_candidatesOf_isSome hmem)
      refine ⟨_, foc_extract_high n ii st nm s c hne hex hth hc, rfl, ?_, ?_⟩
      · rw [applyMatch_product_id]
        exact List.mem_map_of_mem Product.id
          (snd_mem_of_mem_candidatesOf (List.mem_of_find?_eq_some hc))
      · exact applyMatch_preserves_ids n ii st c.2
  · intro hne hall
    cases hex : extractOne (matchTarget n ii) (candidateTexts st.products) with
    | none => exact absurd ((extractOne_eq_none_iff _ _).mp hex) (candidateTexts_ne_nil hne)
    | some pr =>
      obtain ⟨nm, s⟩ := pr
      obtain ⟨hmem, hseq, hmax⟩ := extractOne_spec _ _ _ _ hex
      have hlow : ¬ AUTO_MATCH_THRESHOLD ≤ s := by
        rw [hseq]
        exact not_le.mpr (hall nm hmem)
      refine ⟨_, foc_extract_low n ii st nm s hne hex hlow, rfl, ?_⟩
      rw [create_product_fst_id]
      intro hmem'
      obtain ⟨p, hp, hid⟩ := List.mem_map.mp hmem'
      exact absurd hid (Nat.ne_of_lt (hfresh p hp))

/-- Witness for C1: resolving `"Milk"` against a catalog already containing
`"Milk"` (score 100 ≥ 80) matches the existing entity without creating. -/
theorem C1_resolve_threshold_witness :
    Option.map (fun r => (r.is_new, (wCatalogC1.products.map Product.id).contains r.product.id))
      (find_or_create_product "Milk" none wCatalogC1) = some (false, true) := by
  obtain ⟨r, hr, hnew, hmem, _⟩ :=
    (C1_resolve_threshold "Milk" none wCatalogC1 (by decide) (by decide)).2.1
      (by decide)
      ⟨"Milk", by decide, by
        rw [show matchTarget "Milk" none = "Milk" from rfl, fuzzScore_self]
        norm_num [AUTO_MATCH_THRESHOLD]⟩
  have hcon : (wCatalogC1.products.map Product.id).contains r.product.id = true :=
    List.elem_eq_true_of_mem hmem
  rw [hr]
  show some (r.is_new, (wCatalogC1.products.map Product.id).contains r.product.id) =
    some (false, true)
  rw [hnew, hcon]

/-- C4: after any sequence of resolve calls starting from a catalog in which
every entity has at most 50 aliases, every entity still has at most 50
aliases; the matcher itself is total (alias additions never raise), and once
an entity is at capacity a matching call leaves its alias list unchanged
(further additions are silently dropped). -/
theorem C4_alias_cap_invariant :
    (∀ (reqs : List (String × Option ItemIntelligence)) (st : Catalog),
      (∀ p ∈ st.products, p.aliases.length ≤ 50) →
      ∀ p ∈ (run_resolves reqs st).products, p.aliases.length ≤ 50) ∧
    (∀ (n : String) (ii : Option ItemIntelligence) (st : Catalog),
      (find_or_create_product n ii st).isSome = true) ∧
    (∀ (n : String) (ii : Option ItemIntelligence) (st : Catalog) (r : ResolveOutcome)
      (p : Product), (st.products.map Product.id).Nodup →
      find_or_create_product n ii st = some r → r.is_new = false →
      p ∈ st.products → r.product.id = p.id → 50 ≤ p.aliases.length →
      r.product.aliases = p.aliases) := by
  refine ⟨fun reqs st h => run_resolves_alias_cap reqs st h,
    find_or_create_product_total, ?_⟩
  intro n ii st r p hnodup h hnew hp hid hcap
  obtain ⟨nm, s, c, hne, hex, hth, hc, rfl⟩ := foc_inv_matched n ii st r h hnew
  have hc2 : c.2 ∈ st.products :=
    snd_mem_of_mem_candidatesOf (List.mem_of_find?_eq_some hc)
  have hceq : c.2 = p := by
    apply eq_of_mem_of_id_eq hnodup hc2 hp
    rw [← applyMatch_product_id n ii st c.2]
    exact hid
  rw [applyMatch_product_aliases, hceq, addAliasesLoop_at_cap _ _ _ hcap]

/-- Witness for C4: a concrete resolve sequence preserves the cap, and a
concrete call is total. -/
theorem C4_alias_cap_invariant_witness :
    ((run_resolves [("Milk", none)] wCatalogC4).products.all
      (fun p => p.aliases.length ≤ 50)) = true ∧
    (find_or_create_product "Milk" none wCatalogC4).isSome = true := by
  constructor
  · rw [List.all_eq_true]
    intro p hp
    have := C4_alias_cap_invariant.1 [("Milk", none)] wCatalogC4 (by decide) p hp
    simpa using this
  · exact C4_alias_cap_invariant.2.1 "Milk" none wCatalogC4

/-! ## Branch lemmas for `resolve_products` -/

theorem resolve_products_blank (term : String) (st : Catalog) (limit : Nat)
    (h : pyStrip term = "") :
    resolve_products term st limit = some (⟨[], []⟩, st) := by
  unfold resolve_products
  rw [if_pos h]

theorem resolve_products_substring_hit (term : String) (st : Catalog) (limit : Nat)
    (hblank : ¬ pyStrip term = "")
    (hfound : ((substringFilter (pyStrip term) st).take limit).isEmpty = false) :
    resolve_products term st limit =
      some (⟨((substringFilter (pyStrip term) st).take limit).map Product.id,
        ((substringFilter (pyStrip term) st).take limit).map Product.canonical_name⟩, st) := by
  unfold resolve_products
  rw [if_neg hblank]
  dsimp only
  rw [hfound]
  rfl

theorem resolve_products_empty_catalog (term : String) (st : Catalog) (limit : Nat)
    (hblank : ¬ pyStrip term = "")
    (hfound : ((substringFilter (pyStrip term) st).take limit).isEmpty = true)
    (hemp : st.products = []) :
    resolve_products term st limit = some (⟨[], []⟩, st) := by
  unfold resolve_products
  rw [if_neg hblank]
  dsimp only
  rw [hfound]
  rw [if_pos rfl]
  rw [if_pos (by simp [hemp])]

theorem resolve_products_fuzzy_low (term : String) (st : Catalog) (limit : Nat)
    (nm : String) (s : ℚ) (hblank : ¬ pyStrip term = "")
    (hfound : ((substringFilter (pyStrip term) st).take limit).isEmpty = true)
    (hne : st.products ≠ [])
    (hex : extractOne (pyStrip term) (candidateTexts st.products) = some (nm, s))
    (hlow : s < 75) :
    resolve_products term st limit = some (⟨[], []⟩, st) := by
  unfold resolve_products
  rw [if_neg hblank]
  dsimp only
  rw [hfound]
  rw [if_pos rfl]
  rw [if_neg (by simp [hne])]
  rw [hex]
  dsimp only
  rw [if_pos hlow]

theorem resolve_products_fuzzy_high (term : String) (st : Catalog) (limit : Nat)
    (nm : String) (s : ℚ) (c : String × Product) (hblank : ¬ pyStrip term = "")
    (hfound : ((substringFilter (pyStrip term) st).take limit).isEmpty = true)
    (hne : st.products ≠ [])
    (hex : extractOne (pyStrip term) (candidateTexts st.products) = some (nm, s))
    (hhigh : ¬ s < 75)
    (hfind : (candidatesOf st.products).find? (fun c => c.1 == nm) = some c) :
    resolve_products term st limit = some (⟨[c.2.id], [c.2.canonical_name]⟩, st) := by
  unfold resolve_products
  rw [if_neg hblank]
  dsimp only
  rw [hfound]
  rw [if_pos rfl]
  rw [if_neg (by simp [hne])]
  rw [hex]
  dsimp only
  rw [if_neg hhigh, hfind]

/-- C6, counterexample to the claim as stated: `"milk"` is a case-insensitive
substring of the alias `"Whole Milk"` (the spec's read of the exact path), but
the code's query matches aliases by exact array membership, falls through to
fuzzy scoring and returns an empty resolution. -/
theorem C6_substring_alias_counterexample :
    specSubstringMatch "milk" ⟨[⟨0, "X", ["Whole Milk"], none⟩], [], 1, 0⟩
      ⟨0, "X", ["Whole Milk"], none⟩ = true ∧
    resolve_products "milk" ⟨[⟨0, "X", ["Whole Milk"], none⟩], [], 1, 0⟩ 20 =
      some (⟨[], []⟩, ⟨[⟨0, "X", ["Whole Milk"], none⟩], [], 1, 0⟩) := by
  refine ⟨by decide, ?_⟩
  have e1 : fuzzScore "milk" "X" = (200 * (0 : ℚ)) / (5 : ℚ) :=
    fuzzScore_eval "milk" "X" "milk".data "x".data 0 5 (by decide) (by decide)
      (by decide) (by decide) (by norm_num)
  have e2 : fuzzScore "milk" "Whole Milk" = (200 * (4 : ℚ)) / (14 : ℚ) :=
    fuzzScore_eval "milk" "Whole Milk" "milk".data "milk whole".data 4 14 (by decide)
      (by decide) (by decide) (by decide) (by norm_num)
  have hex : extractOne (pyStrip "milk")
      (candidateTexts (⟨[⟨0, "X", ["Whole Milk"], none⟩], [], 1, 0⟩ : Catalog).products) =
      some ("Whole Milk", fuzzScore "milk" "Whole Milk") := by
    show (if fuzzScore "milk" "Whole Milk" > fuzzScore "milk" "X"
      then some ("Whole Milk", fuzzScore "milk" "Whole Milk")
      else some ("X", fuzzScore "milk" "X")) = some ("Whole Milk", fuzzScore "milk" "Whole Milk")
    rw [e1, e2, if_pos (by norm_num)]
  exact resolve_products_fuzzy_low "milk" _ 20 "Whole Milk" (fuzzScore "milk" "Whole Milk")
    (by decide) (by decide) (by decide) hex (by rw [e2]; norm_num)

/-- C6, amended: when the code's own `WHERE` clause — case-insensitive
substring (`ILIKE '%term%'`) on canonical names and joined category names,
but exact array membership on aliases — selects at least one product, the
resolver returns up to `limit` of those products' ids and canonical names
and leaves the database state unchanged. -/
theorem C6_substring_path_is_read_only (term : String) (st : Catalog) (limit : Nat)
    (hblank : pyStrip term ≠ "")
    (hfound : (substringFilter (pyStrip term) st).take limit ≠ []) :
    resolve_products term st limit =
      some (⟨((substringFilter (pyStrip term) st).take limit).map Product.id,
        ((substringFilter (pyStrip term) st).take limit).map Product.canonical_name⟩, st) ∧
    ((substringFilter (pyStrip term) st).take limit).length ≤ limit ∧
    ∀ p ∈ (substringFilter (pyStrip term) st).take limit, p ∈ st.products := by
  refine ⟨resolve_products_substring_hit term st limit hblank (by simp [hfound]),
    List.length_take_le _ _, ?_⟩
  intro p hp
  exact List.mem_of_mem_filter (List.take_subset _ _ hp)

/-- Witness for C6: term `"milk"` is a case-insensitive substring of the
canonical name `"Whole Milk"`, so the substring path answers directly. -/
theorem C6_substring_path_is_read_only_witness :
    resolve_products "milk" ⟨[⟨0, "Whole Milk", [], none⟩], [], 1, 0⟩ 5 =
      some (⟨[0], ["Whole Milk"]⟩, ⟨[⟨0, "Whole Milk", [], none⟩], [], 1, 0⟩) := by
  have h := (C6_substring_path_is_read_only "milk" ⟨[⟨0, "Whole Milk", [], none⟩], [], 1, 0⟩ 5
    (by decide) (by decide)).1
  rw [h]
  decide

/-- C7: on a non-blank term whose substring query returns nothing, the
resolver falls back to fuzzy scoring over all canonical names and aliases:
it returns exactly one best-matching entity when the best score is at least
75, an empty resolution when every score is below 75 or the catalog is
empty, and never changes the database state. -/
theorem C7_fuzzy_fallback_read_side (term : String) (st : Catalog) (limit : Nat)
    (hblank : pyStrip term ≠ "")
    (hnosub : (substringFilter (pyStrip term) st).take limit = []) :
    (st.products = [] → resolve_products term st limit = some (⟨[], []⟩, st)) ∧
    (st.products ≠ [] →
      (∃ c ∈ candidateTexts st.products, 75 ≤ fuzzScore (pyStrip term) c) →
      ∃ nm p, st.products.find? (fun q => q.canonical_name == nm || q.aliases.contains nm) =
          some p ∧
        (∀ c ∈ candidateTexts st.products,
          fuzzScore (pyStrip term) c ≤ fuzzScore (pyStrip term) nm) ∧
        75 ≤ fuzzScore (pyStrip term) nm ∧
        resolve_products term st limit = some (⟨[p.id], [p.canonical_name]⟩, st)) ∧
    (st.products ≠ [] →
      (∀ c ∈ candidateTexts st.products, fuzzScore (pyStrip term) c < 75) →
      resolve_products term st limit = some (⟨[], []⟩, st)) := by
  have hfound : ((substringFilter (pyStrip term) st).take limit).isEmpty = true := by
    simp [hnosub]
  refine ⟨fun hemp => resolve_products_empty_catalog term st limit hblank hfound hemp, ?_, ?_⟩
  · intro hne ⟨c0, hc0, hscore⟩
    cases hex : extractOne (pyStrip term) (candidateTexts st.products) with
    | none => exact absurd ((extractOne_eq_none_iff _ _).mp hex) (candidateTexts_ne_nil hne)
    | some pr =>
      obtain ⟨nm, s⟩ := pr
      obtain ⟨hmem, hseq, hmax⟩ := extractOne_spec _ _ _ _ hex
      have hth : ¬ s < 75 := not_lt.mpr (le_trans hscore (hmax c0 hc0))
      obtain ⟨c, hc⟩ := Option.isSome_iff_exists.mp (find?_candidatesOf_isSome hmem)
      have hfindp : st.products.find?
          (fun q => q.canonical_name == nm || q.aliases.contains nm) = some c.2 := by
        rw [← find?_candidatesOf_eq, hc]
        rfl
      refine ⟨nm, c.2, hfindp, ?_, ?_,
        resolve_products_fuzzy_high term st limit nm s c hblank hfound hne hex hth hc⟩
      · intro d hd
        rw [← hseq]
        exact hmax d hd
      · rw [← hseq]
        exact not_lt.mp hth
  · intro hne hall
    cases hex : extractOne (pyStrip term) (candidateTexts st.products) with
    | none => exact absurd ((extractOne_eq_none_iff _ _).mp hex) (candidateTexts_ne_nil hne)
    | some pr =>
      obtain ⟨nm, s⟩ := pr
      obtain ⟨hmem, hseq, _⟩ := extractOne_spec _ _ _ _ hex
      exact resolve_products_fuzzy_low term st limit nm s hblank hfound hne hex
        (hseq ▸ hall nm hmem)

/-- Witness for C7 at the concrete term `"milkk"`. -/
theorem C7_fuzzy_fallback_read_side_witness :
    resolve_products "milkk" wCatalogC7 20 = some (⟨[0], ["Milk"]⟩, wCatalogC7) := by
  have escore : fuzzScore "milkk" "Milk" = (200 * (4 : ℚ)) / (9 : ℚ) :=
    fuzzScore_eval "milkk" "Milk" "milkk".data "milk".data 4 9 (by decide) (by decide)
      (by decide) (by decide) (by norm_num)
  have hstrip : pyStrip "milkk" = "milkk" := by decide
  obtain ⟨nm, p, hfind, _, _, hres⟩ :=
    (C7_fuzzy_fallback_read_side "milkk" wCatalogC7 20 (by decide) (by decide)).2.1
      (by decide)
      ⟨"Milk", by decide, by rw [hstrip, escore]; norm_num⟩
  have hp : p = ⟨0, "Milk", [], none⟩ := by
    have := List.mem_of_find?_eq_some hfind
    simpa [wCatalogC7] using this
  rw [hres, hp]

/-- C10: when the best-scoring candidate text is shared by several entities,
both the write-side matcher and the read-side fuzzy fallback resolve to the
entity that first contributes that text in enumeration order — the match is
by string equality with the best-matching text. -/
theorem C10_duplicate_text_first_entity :
    (∀ (n : String) (ii : Option ItemIntelligence) (st : Catalog) (nm : String) (s : ℚ),
      st.products ≠ [] →
      extractOne (matchTarget n ii) (candidateTexts st.products) = some (nm, s) →
      AUTO_MATCH_THRESHOLD ≤ s →
      ∃ p, st.products.find? (fun q => q.canonical_name == nm || q.aliases.contains nm) =
          some p ∧
        Option.map (fun r => r.product.id) (find_or_create_product n ii st) = some p.id) ∧
    (∀ (term : String) (st : Catalog) (limit : Nat) (nm : String) (s : ℚ),
      pyStrip term ≠ "" →
      (substringFilter (pyStrip term) st).take limit = [] →
      st.products ≠ [] →
      extractOne (pyStrip term) (candidateTexts st.products) = some (nm, s) →
      ¬ s < 75 →
      ∃ p, st.products.find? (fun q => q.canonical_name == nm || q.aliases.contains nm) =
          some p ∧
        resolve_products term st limit = some (⟨[p.id], [p.canonical_name]⟩, st)) := by
  constructor
  · intro n ii st nm s hne hex hth
    obtain ⟨hmem, _, _⟩ := extractOne_spec _ _ _ _ hex
    obtain ⟨c, hc⟩ := Option.isSome_iff_exists.mp (find?_candidatesOf_isSome hmem)
    have hfindp : st.products.find?
        (fun q => q.canonical_name == nm || q.aliases.contains nm) = some c.2 := by
      rw [← find?_candidatesOf_eq, hc]
      rfl
    refine ⟨c.2, hfindp, ?_⟩
    rw [foc_extract_high n ii st nm s c hne hex hth hc]
    rfl
  · intro term st limit nm s hblank hnosub hne hex hth
    obtain ⟨hmem, _, _⟩ := extractOne_spec _ _ _ _ hex
    obtain ⟨c, hc⟩ := Option.isSome_iff_exists.mp (find?_candidatesOf_isSome hmem)
    have hfindp : st.products.find?
        (fun q => q.canonical_name == nm || q.aliases.contains nm) = some c.2 := by
      rw [← find?_candidatesOf_eq, hc]
      rfl
    exact ⟨c.2, hfindp,
      resolve_products_fuzzy_high term st limit nm s c hblank (by simp [hnosub]) hne hex hth hc⟩

/-- Witness for C10: resolving `"Shared"` picks the first entity (id 0) that
carries the text, not the second entity whose canonical name it is. -/
theorem C10_duplicate_text_first_entity_witness :
    Option.map (fun r => r.product.id) (find_or_create_product "Shared" none wCatalogC10) =
      some 0 := by
  have e1 : fuzzScore "Shared" "Milk" = (200 * (0 : ℚ)) / (10 : ℚ) :=
    fuzzScore_eval "Shared" "Milk" "shared".data "milk".data 0 10 (by decide) (by decide)
      (by decide) (by decide) (by norm_num)
  have e2 : fuzzScore "Shared" "Shared" = 100 := fuzzScore_self "Shared"
  have h2 : extractOne "Shared" ["Shared", "Shared"] =
      some ("Shared", fuzzScore "Shared" "Shared") := by
    show (if fuzzScore "Shared" "Shared" > fuzzScore "Shared" "Shared"
        then some ("Shared", fuzzScore "Shared" "Shared")
        else some ("Shared", fuzzScore "Shared" "Shared")) =
      some ("Shared", fuzzScore "Shared" "Shared")
    exact ite_self _
  have hlist : candidateTexts wCatalogC10.products = ["Milk", "Shared", "Shared"] := by decide
  have hex : extractOne (matchTarget "Shared" none) (candidateTexts wCatalogC10.products) =
      some ("Shared", fuzzScore "Shared" "Shared") := by
    rw [show matchTarget "Shared" none = "Shared" from rfl, hlist]
    show (match extractOne "Shared" ["Shared", "Shared"] with
      | none => some ("Milk", fuzzScore "Shared" "Milk")
      | some (n', s') =>
        if s' > fuzzScore "Shared" "Milk" then some (n', s')
        else some ("Milk", fuzzScore "Shared" "Milk")) =
      some ("Shared", fuzzScore "Shared" "Shared")
    rw [h2]
    dsimp only
    rw [if_pos (by rw [e1, e2]; norm_num)]
  obtain ⟨p, hfindp, hmap⟩ :=
    C10_duplicate_text_first_entity.1 "Shared" none wCatalogC10 "Shared"
      (fuzzScore "Shared" "Shared") (by decide) hex
      (by rw [e2]; norm_num [AUTO_MATCH_THRESHOLD])
  have hcomp : wCatalogC10.products.find?
      (fun q => q.canonical_name == "Shared" || q.aliases.contains "Shared") =
      some ⟨0, "Milk", ["Shared"], none⟩ := by decide
  have hp : p = ⟨0, "Milk", ["Shared"], none⟩ :=
    Option.some.inj (hfindp.symm.trans hcomp)
  rw [hmap, hp]

/-- Inversion: a `find_or_create_product` call that reports `is_new = true`
went through `_create_product`. -/
theorem foc_inv_created (n : String) (ii : Option ItemIntelligence) (st : Catalog)
    (r : ResolveOutcome) (h : find_or_create_product n ii st = some r)
    (hnew : r.is_new = true) :
    r = ⟨(create_product n ii st).1, true, (create_product n ii st).2, true⟩ := by
  by_cases hemp : st.products = []
  · rw [foc_empty n ii st hemp] at h
    exact (Option.some.inj h).symm
  · cases hex : extractOne (matchTarget n ii) (candidateTexts st.products) with
    | none =>
      rw [foc_extract_none n ii st hemp hex] at h
      exact (Option.some.inj h).symm
    | some pr =>
      obtain ⟨nm, s⟩ := pr
      by_cases hth : AUTO_MATCH_THRESHOLD ≤ s
      · obtain ⟨hmem, _, _⟩ := extractOne_spec _ _ _ _ hex
        obtain ⟨c, hc⟩ := Option.isSome_iff_exists.mp (find?_candidatesOf_isSome hmem)
        rw [foc_extract_high n ii st nm s c hemp hex hth hc] at h
        obtain rfl := (Option.some.inj h).symm
        exact absurd hnew (by simp [applyMatch_is_new])
      · rw [foc_extract_low n ii st nm s hemp hex hth] at h
        exact (Option.some.inj h).symm

/-- C2, counterexample to the claim as stated: with the hint canonical name
`"UHT milk"` and hint alias `"LECHE"` for the raw name `"Leche"`, the created
entity's canonical name is the title-cased `"Uht Milk"` (not the hint's
canonical name verbatim), and the alias list keeps both `"Leche"` and
`"LECHE"`, which are equal case-insensitively (dedup is exact, not
case-insensitive). -/
theorem C2_created_fields_counterexample :
    Option.map (fun r => (r.product.canonical_name, r.product.aliases))
      (find_or_create_product "Leche"
        (some ⟨"Leche", "UHT milk", ["LECHE"], "", 0⟩) ⟨[], [], 0, 0⟩) =
      some ("Uht Milk", ["Leche", "LECHE"]) ∧
    "Uht Milk" ≠ "UHT milk" ∧
    pyLower "Leche" = pyLower "LECHE" :=
  ⟨by decide, by decide, by decide⟩

/-- C2, amended: whenever `resolve` creates a new entity, its canonical name
is the whitespace-stripped, title-cased hint canonical name when the hint
carries a non-empty one, else the stripped, title-cased raw name; and its
alias list is the raw name followed by the hint aliases, each stripped,
blank entries dropped, de-duplicated by exact string equality keeping first
occurrences, and capped at 50. -/
theorem C2_created_entity_fields (n : String) (ii : Option ItemIntelligence) (st : Catalog)
    (r : ResolveOutcome) (h : find_or_create_product n ii st = some r)
    (hnew : r.is_new = true) :
    r.product.canonical_name = createdCanonicalName n ii ∧
    r.product.aliases = createdAliases n ii := by
  obtain rfl := foc_inv_created n ii st r h hnew
  exact ⟨rfl, rfl⟩

/-- Witness for C2: creating `"pechuga de pollo"` with a hint on an empty
catalog. -/
theorem C2_created_entity_fields_witness :
    find_or_create_product "pechuga de pollo" (some wHintC2) ⟨[], [], 0, 0⟩ = some wOutC2 ∧
    wOutC2.product.canonical_name = createdCanonicalName "pechuga de pollo" (some wHintC2) ∧
    wOutC2.product.aliases = ["pechuga de pollo", "Chicken Fillet"] := by
  have h : find_or_create_product "pechuga de pollo" (some wHintC2) ⟨[], [], 0, 0⟩ =
      some wOutC2 := by decide
  have hf := C2_created_entity_fields "pechuga de pollo" (some wHintC2) ⟨[], [], 0, 0⟩
    wOutC2 h (by decide)
  exact ⟨h, hf.1, by decide⟩

/-- A matched-branch call whose alias loop adds nothing and whose category
backfill condition is false changes nothing: the outcome carries the matched
product unchanged, the same rows (up to the identity replacement), and
`wrote = false`. -/
theorem applyMatch_noop (n : String) (ii : Option ItemIntelligence) (st : Catalog)
    (mp : Product)
    (hloop : addAliasesLoop (candidateAliases n ii) mp.aliases false = (mp.aliases, false))
    (hnb : backfillCond ii mp = false) :
    applyMatch n ii st mp =
      ⟨mp, false,
        { st with products := st.products.map (fun p => if p.id == mp.id then mp else p) },
        false⟩ := by
  unfold applyMatch
  dsimp only
  rw [hloop, hnb]
  rw [if_neg Bool.false_ne_true]
  rfl

/-- C9: a resolve call that matches an existing entity, adds no alias (every
candidate alias is an equal-case-insensitive duplicate) and does not
backfill a category leaves the matched entity's fields completely unchanged,
leaves the database state unchanged, and reports no commit-worthy write. -/
theorem C9_no_change_no_write (n : String) (ii : Option ItemIntelligence) (st : Catalog)
    (r : ResolveOutcome) (p : Product)
    (hnodup : (st.products.map Product.id).Nodup)
    (h : find_or_create_product n ii st = some r) (hnew : r.is_new = false)
    (hp : p ∈ st.products) (hid : r.product.id = p.id)
    (hdup : ∀ a ∈ candidateAliases n ii,
      ((p.aliases.map pyLower).contains (pyLower (pyStrip a))) = true)
    (hnocat : backfillCond ii p = false) :
    r.product = p ∧ r.state = st ∧ r.wrote = false := by
  obtain ⟨nm, s, c, hne, hex, hth, hc, rfl⟩ := foc_inv_matched n ii st r h hnew
  have hc2 : c.2 ∈ st.products :=
    snd_mem_of_mem_candidatesOf (List.mem_of_find?_eq_some hc)
  have hceq : c.2 = p := by
    apply eq_of_mem_of_id_eq hnodup hc2 hp
    rw [← applyMatch_product_id n ii st c.2]
    exact hid
  subst hceq
  have hloop : addAliasesLoop (candidateAliases n ii) c.2.aliases false =
      (c.2.aliases, false) :=
    addAliasesLoop_noop _ _ _ (fun a ha => Or.inr (hdup a ha))
  rw [applyMatch_noop n ii st c.2 hloop hnocat]
  refine ⟨rfl, ?_, rfl⟩
  show ({ st with
    products := st.products.map (fun q => if q.id == c.2.id then c.2 else q) }) = st
  rw [map_replace_self hnodup hc2]

/-- Witness for C9: resolving `"leche"` against an entity whose canonical
name is `"Leche"` and whose alias list already holds `"LECHE"` writes
nothing. -/
theorem C9_no_change_no_write_witness :
    Option.map (fun r => (r.product, r.state, r.wrote))
      (find_or_create_product "leche" none wCatalogC9) =
      some (⟨0, "Leche", ["LECHE"], none⟩, wCatalogC9, false) := by
  have e1 : fuzzScore "leche" "Leche" = 100 :=
    fuzzScore_eq_100_of_process_eq (by decide)
  have e2 : fuzzScore "leche" "LECHE" = 100 :=
    fuzzScore_eq_100_of_process_eq (by decide)
  have hlist : candidateTexts wCatalogC9.products = ["Leche", "LECHE"] := by decide
  have hex : extractOne (matchTarget "leche" none) (candidateTexts wCatalogC9.products) =
      some ("Leche", fuzzScore "leche" "Leche") := by
    rw [show matchTarget "leche" none = "leche" from rfl, hlist]
    show (if fuzzScore "leche" "LECHE" > fuzzScore "leche" "Leche"
        then some ("LECHE", fuzzScore "leche" "LECHE")
        else some ("Leche", fuzzScore "leche" "Leche")) =
      some ("Leche", fuzzScore "leche" "Leche")
    rw [e1, e2, if_neg (by norm_num)]
  have hfind : (candidatesOf wCatalogC9.products).find? (fun c => c.1 == "Leche") =
      some ("Leche", ⟨0, "Leche", ["LECHE"], none⟩) := by decide
  have hfoc := foc_extract_high "leche" none wCatalogC9 "Leche"
    (fuzzScore "leche" "Leche") ("Leche", ⟨0, "Leche", ["LECHE"], none⟩)
    (by decide) hex (by rw [e1]; norm_num [AUTO_MATCH_THRESHOLD]) hfind
  obtain ⟨h1, h2, h3⟩ := C9_no_change_no_write "leche" none wCatalogC9
    (applyMatch "leche" none wCatalogC9 ⟨0, "Leche", ["LECHE"], none⟩)
    ⟨0, "Leche", ["LECHE"], none⟩ (by decide) hfoc rfl (by decide) rfl
    (by decide) rfl
  rw [hfoc]
  show some ((applyMatch "leche" none wCatalogC9 ⟨0, "Leche", ["LECHE"], none⟩).product,
    (applyMatch "leche" none wCatalogC9 ⟨0, "Leche", ["LECHE"], none⟩).state,
    (applyMatch "leche" none wCatalogC9 ⟨0, "Leche", ["LECHE"], none⟩).wrote) =
    some (⟨0, "Leche", ["LECHE"], none⟩, wCatalogC9, false)
  rw [h1, h2, h3]

/-- C3, counterexample to the claim as stated: the alias dedup set is built
from the alias list only, not the canonical name.  Against an entity with
canonical name `"Leche"` and no aliases, resolving `"LECHE"` (score 100)
appends `"LECHE"` even though the canonical name is equal
case-insensitively, growing the alias list. -/
theorem C3_canonical_not_deduped_counterexample :
    Option.map (fun r => (r.is_new, r.product.aliases))
      (find_or_create_product "LECHE" none ⟨[⟨0, "Leche", [], none⟩], [], 1, 0⟩) =
      some (false, ["LECHE"]) ∧
    pyLower "LECHE" = pyLower "Leche" := by
  have e1 : fuzzScore "LECHE" "Leche" = 100 :=
    fuzzScore_eq_100_of_process_eq (by decide)
  have hex : extractOne (matchTarget "LECHE" none)
      (candidateTexts (⟨[⟨0, "Leche", [], none⟩], [], 1, 0⟩ : Catalog).products) =
      some ("Leche", fuzzScore "LECHE" "Leche") := rfl
  have hfind : (candidatesOf (⟨[⟨0, "Leche", [], none⟩], [], 1, 0⟩ : Catalog).products).find?
      (fun c => c.1 == "Leche") = some ("Leche", ⟨0, "Leche", [], none⟩) := by decide
  have hfoc := foc_extract_high "LECHE" none ⟨[⟨0, "Leche", [], none⟩], [], 1, 0⟩ "Leche"
    (fuzzScore "LECHE" "Leche") ("Leche", ⟨0, "Leche", [], none⟩) (by decide) hex
    (by rw [e1]; norm_num [AUTO_MATCH_THRESHOLD]) hfind
  refine ⟨?_, by decide⟩
  rw [hfoc]
  decide

/-- C3, amended: on a successful match, registering the raw name and the
hint-suggested aliases is a no-op whenever each of them has an
equal-case-insensitive alias already in the matched entity's alias list
(the canonical name is not consulted): the alias list does not change. -/
theorem C3_alias_duplicate_noop (n : String) (ii : Option ItemIntelligence) (st : Catalog)
    (r : ResolveOutcome) (p : Product)
    (hnodup : (st.products.map Product.id).Nodup)
    (h : find_or_create_product n ii st = some r) (hnew : r.is_new = false)
    (hp : p ∈ st.products) (hid : r.product.id = p.id)
    (hdup : ∀ a ∈ candidateAliases n ii,
      ((p.aliases.map pyLower).contains (pyLower (pyStrip a))) = true) :
    r.product.aliases = p.aliases := by
  obtain ⟨nm, s, c, hne, hex, hth, hc, rfl⟩ := foc_inv_matched n ii st r h hnew
  have hc2 : c.2 ∈ st.products :=
    snd_mem_of_mem_candidatesOf (List.mem_of_find?_eq_some hc)
  have hceq : c.2 = p := by
    apply eq_of_mem_of_id_eq hnodup hc2 hp
    rw [← applyMatch_product_id n ii st c.2]
    exact hid
  subst hceq
  rw [applyMatch_product_aliases,
    addAliasesLoop_noop _ _ _ (fun a ha => Or.inr (hdup a ha))]

/-- Witness for C3: resolving `"LECHE"` and then `"leche"` against an entity
already holding alias `"Leche"` does not grow the alias list (and the first
call leaves the state unchanged, so the second call starts from the same
catalog). -/
theorem C3_alias_duplicate_noop_witness :
    Option.map (fun r => (r.product.aliases, r.state))
      (find_or_create_product "LECHE" none wCatalogC3) = some (["Leche"], wCatalogC3) ∧
    Option.map (fun r => r.product.aliases)
      (find_or_create_product "leche" none wCatalogC3) = some ["Leche"] := by
  have hfind : (candidatesOf wCatalogC3.products).find? (fun c => c.1 == "Leche") =
      some ("Leche", ⟨0, "Leche", ["Leche"], none⟩) := by decide
  constructor
  · have e1 : fuzzScore "LECHE" "Leche" = 100 :=
      fuzzScore_eq_100_of_process_eq (by decide)
    have hex : extractOne (matchTarget "LECHE" none) (candidateTexts wCatalogC3.products) =
        some ("Leche", fuzzScore "LECHE" "Leche") := by
      show (if fuzzScore "LECHE" "Leche" > fuzzScore "LECHE" "Leche"
          then some ("Leche", fuzzScore "LECHE" "Leche")
          else some ("Leche", fuzzScore "LECHE" "Leche")) =
        some ("Leche", fuzzScore "LECHE" "Leche")
      exact ite_self _
    have hfoc := foc_extract_high "LECHE" none wCatalogC3 "Leche"
      (fuzzScore "LECHE" "Leche") ("Leche", ⟨0, "Leche", ["Leche"], none⟩) (by decide) hex
      (by rw [e1]; norm_num [AUTO_MATCH_THRESHOLD]) hfind
    have halias := C3_alias_duplicate_noop "LECHE" none wCatalogC3
      (applyMatch "LECHE" none wCatalogC3 ⟨0, "Leche", ["Leche"], none⟩)
      ⟨0, "Leche", ["Leche"], none⟩ (by decide) hfoc rfl (by decide) rfl (by decide)
    rw [hfoc]
    show some ((applyMatch "LECHE" none wCatalogC3 ⟨0, "Leche", ["Leche"], none⟩).product.aliases,
      (applyMatch "LECHE" none wCatalogC3 ⟨0, "Leche", ["Leche"], none⟩).state) =
      some (["Leche"], wCatalogC3)
    rw [halias]
    decide
  · have e1 : fuzzScore "leche" "Leche" = 100 :=
      fuzzScore_eq_100_of_process_eq (by decide)
    have hex : extractOne (matchTarget "leche" none) (candidateTexts wCatalogC3.products) =
        some ("Leche", fuzzScore "leche" "Leche") := by
      show (if fuzzScore "leche" "Leche" > fuzzScore "leche" "Leche"
          then some ("Leche", fuzzScore "leche" "Leche")
          else some ("Leche", fuzzScore "leche" "Leche")) =
        some ("Leche", fuzzScore "leche" "Leche")
      exact ite_self _
    have hfoc := foc_extract_high "leche" none wCatalogC3 "Leche"
      (fuzzScore "leche" "Leche") ("Leche", ⟨0, "Leche", ["Leche"], none⟩) (by decide) hex
      (by rw [e1]; norm_num [AUTO_MATCH_THRESHOLD]) hfind
    have halias := C3_alias_duplicate_noop "leche" none wCatalogC3
      (applyMatch "leche" none wCatalogC3 ⟨0, "Leche", ["Leche"], none⟩)
      ⟨0, "Leche", ["Leche"], none⟩ (by decide) hfoc rfl (by decide) rfl (by decide)
    rw [hfoc]
    show some ((applyMatch "leche" none wCatalogC3 ⟨0, "Leche", ["Leche"], none⟩).product.aliases) =
      some ["Leche"]
    rw [halias]

end Luxtick
